import Mathlib

/-!
Shallow embedding of `gwr-timetable/scripts/onnx-to-gwr-timetable-yaml.py`:
tensor-metadata resolution (`_collect_tensors`), device memory allocation
(`_layout_tensors`), SRAM-capacity chunking (`_split_memory_op`) and the
graph-to-timetable lowering (`onnx_to_gwr_timetable`), together with proofs
about them.

Python's unbounded integers are modelled by `Int`/`Nat`; Python's floor
division `//` is `Int.fdiv`; Python's insertion-ordered `dict` is an
association list with in-place update; Python exceptions are `Except String`.
-/

set_option maxHeartbeats 1000000

namespace GWR

/-- Decimal digit character `d ↦ '0'..'9'`, the digits used by Python's
decimal rendering of integers. -/
def digitOf (d : Nat) : Char :=
  match d with
  | 0 => '0' | 1 => '1' | 2 => '2' | 3 => '3' | 4 => '4'
  | 5 => '5' | 6 => '6' | 7 => '7' | 8 => '8' | _ => '9'

/-- The decimal digit string of a natural number, as a character list; models
Python's `str(n)` / f-string formatting of the (always non-negative) indices
interpolated into node ids. -/
def natCharsAux : Nat → Nat → List Char
  | 0, n => [digitOf n]
  | fuel + 1, n =>
    if n < 10 then [digitOf n]
    else natCharsAux fuel (n / 10) ++ [digitOf (n % 10)]

/-- The decimal digit list of `n` (the fuel `n` always suffices, since the
quotient shrinks on every step). -/
def natChars (n : Nat) : List Char := natCharsAux n n

/-- Decimal rendering of a natural number as a `String`. -/
def natStr (n : Nat) : String := ⟨natChars n⟩

/-! ### Python `dict` (insertion ordered, string keys) -/

/-- Lookup in an insertion-ordered dict modelled as an association list. -/
def dictGet? {α : Type} : List (String × α) → String → Option α
  | [], _ => none
  | p :: rest, k => if p.1 = k then some p.2 else dictGet? rest k

/-- `d[k] = v` on a Python dict: update the value in place when the key is
present (keeping its insertion position), otherwise append the new entry. -/
def dictSet {α : Type} : List (String × α) → String → α → List (String × α)
  | [], k, v => [(k, v)]
  | p :: rest, k, v => if p.1 = k then (k, v) :: rest else p :: dictSet rest k v

/-! ### ONNX data model

`_shape_from_type_proto` / `_dtype_from_type_proto` read a declared
`TypeProto` only through the optional dimension list (a `dim_value` gives a
concrete `Int`, a `dim_param` or empty field gives `none`) and the optional
element type.  A `ValueInfo` therefore carries exactly those two extraction
results; every combination of the two options is realisable by some proto. -/

namespace TensorProto

def FLOAT : Nat := 1
def UINT8 : Nat := 2
def INT8 : Nat := 3
def UINT16 : Nat := 4
def INT16 : Nat := 5
def INT32 : Nat := 6
def INT64 : Nat := 7
def BOOL : Nat := 9
def FLOAT16 : Nat := 10
def DOUBLE : Nat := 11
def UINT32 : Nat := 12
def UINT64 : Nat := 13
def COMPLEX64 : Nat := 14
def COMPLEX128 : Nat := 15
def BFLOAT16 : Nat := 16

end TensorProto

/-- A `value_info` / graph-input / graph-output entry: its name and the
results of `_shape_from_type_proto` and `_dtype_from_type_proto` on its
declared type. -/
structure ValueInfo where
  name : String
  shape : Option (List (Option Int))
  dtype : Option Nat
deriving DecidableEq, Repr

/-- An initializer (named constant tensor): its `dims` and `data_type`
protobuf fields (always present on a concrete `TensorProto`). -/
structure Initializer where
  name : String
  dims : List Int
  data_type : Nat
deriving DecidableEq, Repr

/-- A graph node: name, operator kind, and ordered input/output tensor-name
lists (an empty string is an unused optional slot). -/
structure NodeProto where
  name : String
  op_type : String
  input : List String
  output : List String
deriving DecidableEq, Repr

structure GraphProto where
  value_info : List ValueInfo
  input : List ValueInfo
  output : List ValueInfo
  initializer : List Initializer
  node : List NodeProto
deriving DecidableEq, Repr

structure ModelProto where
  graph : GraphProto
deriving DecidableEq, Repr

/-- `_shape_from_type_proto(vi.type)`. -/
def _shape_from_type_proto (vi : ValueInfo) : Option (List (Option Int)) := vi.shape

/-- `_dtype_from_type_proto(vi.type)`. -/
def _dtype_from_type_proto (vi : ValueInfo) : Option Nat := vi.dtype

/-- The `_DTYPE_SIZES` table: ONNX dtype code to byte width. -/
def _DTYPE_SIZES : List (Nat × Nat) :=
  [(TensorProto.FLOAT, 4), (TensorProto.UINT8, 1), (TensorProto.INT8, 1),
   (TensorProto.UINT16, 2), (TensorProto.INT16, 2), (TensorProto.INT32, 4),
   (TensorProto.INT64, 8), (TensorProto.BOOL, 1), (TensorProto.FLOAT16, 2),
   (TensorProto.DOUBLE, 8), (TensorProto.UINT32, 4), (TensorProto.UINT64, 8),
   (TensorProto.COMPLEX64, 8), (TensorProto.COMPLEX128, 16), (TensorProto.BFLOAT16, 2)]

/-- `_DTYPE_SIZES.get(dtype, 4)`. -/
def dtypeSizeOf (dtype : Nat) : Nat :=
  ((_DTYPE_SIZES.find? (fun p => p.1 = dtype)).map Prod.snd).getD 4

/-- `_get_tensor_num_elements`: product of the dimensions, a `None` or
non-positive dimension contributing the placeholder factor `1`. -/
def _get_tensor_num_elements (shape : List (Option Int)) : Int :=
  shape.foldl (fun num_elements dim =>
    match dim with
    | none => num_elements * 1
    | some d => if d ≤ 0 then num_elements * 1 else num_elements * d) 1

/-- `_get_tensor_size_bytes`: element count times byte width (4 bytes when
the dtype is unknown). -/
def _get_tensor_size_bytes (shape : List (Option Int)) (dtype : Nat) : Int :=
  _get_tensor_num_elements shape * (dtypeSizeOf dtype : Int)

/-- A resolved tensor record, the value tuple
`(shape, dtype, size_bytes)` stored by `_collect_tensors`. -/
structure TensorRec where
  shape : Option (List (Option Int))
  dtype : Nat
  size_bytes : Int
deriving DecidableEq, Repr

/-! ### `_collect_tensors` -/

/-- `initializer_map = {init.name: init for init in graph.initializer}`
(later duplicates overwrite earlier ones). -/
def initializerMapOf (g : GraphProto) : List (String × Initializer) :=
  g.initializer.foldl (fun m init => dictSet m init.name init) []

/-- The record the first pass of `_collect_tensors` stores for one declared
tensor: declared shape/dtype, falling back to initializer metadata and then
to the `[1]` / `FLOAT` placeholders. -/
def declaredStep (imap : List (String × Initializer)) (vi : ValueInfo) : TensorRec :=
  let shape0 := _shape_from_type_proto vi
  let dtype0 := _dtype_from_type_proto vi
  let init? := dictGet? imap vi.name
  let shape1 : Option (List (Option Int)) :=
    match shape0, init? with
    | none, some init => some (init.dims.map some)
    | s, _ => s
  let dtype1 : Option Nat :=
    match dtype0, init? with
    | none, some init => some init.data_type
    | d, _ => d
  let dtype := dtype1.getD TensorProto.FLOAT
  let shape := shape1.getD [some 1]
  ⟨some shape, dtype, _get_tensor_size_bytes shape dtype⟩

/-- First pass of `_collect_tensors`: the loop over
`list(graph.value_info) + list(graph.input) + list(graph.output)`. -/
def collectDeclared (imap : List (String × Initializer)) (vis : List ValueInfo)
    (t0 : List (String × TensorRec)) : List (String × TensorRec) :=
  vis.foldl (fun tensors vi => dictSet tensors vi.name (declaredStep imap vi)) t0

/-- The record the second pass of `_collect_tensors` stores for an
initializer entry. -/
def initRec (init : Initializer) : TensorRec :=
  ⟨some (init.dims.map some), init.data_type,
    _get_tensor_size_bytes (init.dims.map some) init.data_type⟩

/-- Second pass of `_collect_tensors`: the loop over `graph.initializer`
(its `dict` store overwrites any record of the same name). -/
def collectInitializers (inits : List Initializer) (t0 : List (String × TensorRec)) :
    List (String × TensorRec) :=
  inits.foldl (fun tensors init => dictSet tensors init.name (initRec init)) t0

/-- The `[1]` / `FLOAT` placeholder record given to tensors referenced only
by graph nodes. -/
def placeholderRec : TensorRec :=
  ⟨some [some 1], TensorProto.FLOAT, _get_tensor_size_bytes [some 1] TensorProto.FLOAT⟩

/-- One step of the third pass of `_collect_tensors`: give a missing
non-empty node-referenced name the placeholder record. -/
def addPlaceholder (tensors : List (String × TensorRec)) (tensor_name : String) :
    List (String × TensorRec) :=
  if tensor_name = "" then tensors
  else if (dictGet? tensors tensor_name).isSome then tensors
  else dictSet tensors tensor_name placeholderRec

/-- Third pass of `_collect_tensors`: re-scan every node's input and output
names. -/
def collectNodeTensors (nodes : List NodeProto) (t0 : List (String × TensorRec)) :
    List (String × TensorRec) :=
  nodes.foldl (fun tensors node =>
    (node.input ++ node.output).foldl addPlaceholder tensors) t0

/-- `_collect_tensors`: the full tensor-metadata resolver. -/
def _collect_tensors (model : ModelProto) : List (String × TensorRec) :=
  collectNodeTensors model.graph.node
    (collectInitializers model.graph.initializer
      (collectDeclared (initializerMapOf model.graph)
        (model.graph.value_info ++ model.graph.input ++ model.graph.output) []))

/-! ### `_layout_tensors` -/

/-- A `memory_maps[...].ranges` entry.  `base_address` is the integer value
of the configured literal (the script also accepts hex-with-separator and
`GB`/`MB`/`KB` magnitude strings, all of which it converts to this integer
before any further use; a range without a `device` key reads as `"hbm0"`). -/
structure MemRange where
  device : String
  base_address : Int
deriving DecidableEq, Repr

structure MemoryMap where
  ranges : List MemRange
deriving DecidableEq, Repr

/-- A processing element's `config` mapping.  `sram_bytes` is the integer
value of the configured literal when the key is present (hex-with-separator
strings are likewise converted to this integer by the script). -/
structure PEConfig where
  sram_bytes : Option Int
deriving DecidableEq, Repr

structure ProcessingElement where
  name : String
  config : PEConfig
deriving DecidableEq, Repr

structure PlatformConfig where
  memory_maps : List MemoryMap
  processing_elements : List ProcessingElement
deriving DecidableEq, Repr

/-- The per-device cursor initialisation loop of `_layout_tensors`:
`if device not in device_addresses: device_addresses[device] = base`. -/
def deviceAddressesOf (ranges : List MemRange) : List (String × Int) :=
  ranges.foldl (fun m r =>
    if (dictGet? m r.device).isSome then m else dictSet m r.device r.base_address) []

/-- `((size_bytes + 63) // 64) * 64`: size rounded up to a 64-byte boundary. -/
def align64 (size_bytes : Int) : Int := (size_bytes + 63).fdiv 64 * 64

/-- The round-robin allocation loop of `_layout_tensors`, walking the
size-sorted tensors while threading the per-device cursors
(`device_addresses`), the round-robin index and the result map. -/
def allocWalk (device_list : List String) :
    List (String × TensorRec) → List (String × Int) → Nat → List (String × Int) →
    List (String × Int)
  | [], _, _, tensor_addresses => tensor_addresses
  | (tensor_name, tr) :: rest, device_addresses, current_device_index, tensor_addresses =>
    let device := device_list.getD current_device_index ""
    let next_index := (current_device_index + 1) % device_list.length
    let addr := (dictGet? device_addresses device).getD 0
    allocWalk device_list rest
      (dictSet device_addresses device (addr + align64 tr.size_bytes))
      next_index
      (dictSet tensor_addresses tensor_name addr)

/-- One step of the stable size-descending insertion: the new (originally
earlier) tensor moves past strictly larger ones only, so ties keep their
insertion order. -/
def insertDescBySize (x : String × TensorRec) :
    List (String × TensorRec) → List (String × TensorRec)
  | [] => [x]
  | y :: ys =>
    if x.2.size_bytes < y.2.size_bytes then y :: insertDescBySize x ys else x :: y :: ys

/-- `sorted(tensors.items(), key=size, reverse=True)`: Python's sort is
stable and `reverse=True` preserves stability, so its output is the unique
size-descending ordering keeping ties in insertion order — computed here by
a stable insertion sort. -/
def sortDescBySize : List (String × TensorRec) → List (String × TensorRec)
  | [] => []
  | x :: xs => insertDescBySize x (sortDescBySize xs)

/-- `_layout_tensors`: assign a base address to every tensor by size-ordered
round-robin placement over the devices of the first memory map. -/
def _layout_tensors (tensors : List (String × TensorRec))
    (platform_config : PlatformConfig) : Except String (List (String × Int)) :=
  match platform_config.memory_maps with
  | [] => .error "No memory maps found in platform configuration"
  | mm :: _ =>
    if mm.ranges = [] then .error "No memory ranges found in platform configuration"
    else
      let device_addresses := deviceAddressesOf mm.ranges
      let device_list := device_addresses.map Prod.fst
      if device_list = [] then .error "No devices available for tensor allocation"
      else .ok (allocWalk device_list (sortDescBySize tensors) device_addresses 0 [])

/-! ### Lowering helpers -/

/-- The `dtype_map` table of `_dtype_to_string`. -/
def dtype_map : List (Nat × String) :=
  [(TensorProto.FLOAT, "fp32"), (TensorProto.FLOAT16, "fp16"),
   (TensorProto.BFLOAT16, "bf16"), (TensorProto.DOUBLE, "fp64"),
   (TensorProto.INT8, "int8"), (TensorProto.INT16, "int16"),
   (TensorProto.INT32, "int32"), (TensorProto.INT64, "int64"),
   (TensorProto.UINT8, "uint8"), (TensorProto.UINT16, "uint16"),
   (TensorProto.UINT32, "uint32"), (TensorProto.UINT64, "uint64"),
   (TensorProto.BOOL, "bool")]

/-- `_dtype_to_string`: dtype code to string, default `fp32`. -/
def _dtype_to_string (dtype : Nat) : String :=
  ((dtype_map.find? (fun p => p.1 = dtype)).map Prod.snd).getD "fp32"

/-- The `op_map` table of `_map_onnx_op_to_gwr_op`. -/
def op_map : List (String × String) :=
  [("Add", "add"), ("Sub", "add"), ("Mul", "add"), ("Div", "add"),
   ("MatMul", "mul"), ("Conv", "mul"), ("Relu", "mul"), ("Sigmoid", "mul"),
   ("Tanh", "mul"), ("BatchNormalization", "mul"), ("MaxPool", "mul"),
   ("AveragePool", "mul"), ("Flatten", "mul"), ("Reshape", "mul"),
   ("Transpose", "mul"), ("Concat", "mul"), ("Softmax", "mul"),
   ("Gemm", "mul"), ("Cast", "mul"), ("Constant", "mul"), ("Gather", "mul"),
   ("GroupQueryAttention", "mul"), ("MatMulNBits", "mul"), ("QMoE", "mul"),
   ("ReduceSum", "mul"), ("Shape", "mul"),
   ("SimplifiedLayerNormalization", "mul"),
   ("SkipSimplifiedLayerNormalization", "mul")]

/-- `_map_onnx_op_to_gwr_op`: ONNX kind to GWR op category, default `add`. -/
def _map_onnx_op_to_gwr_op (op_type : String) : String :=
  ((op_map.find? (fun p => p.1 = op_type)).map Prod.snd).getD "add"

/-- `_calculate_num_ops`: element count of the named output tensor, at least
1, failing when the name has no record (or the record has no shape). -/
def _calculate_num_ops (tensors : List (String × TensorRec)) (output_name : String) :
    Except String Int :=
  match dictGet? tensors output_name with
  | none => .error ("Output tensor '" ++ output_name ++ "' not found in tensors")
  | some tr =>
    match tr.shape with
    | none => .error ("Output tensor '" ++ output_name ++
        "' has unknown shape; cannot calculate num ops")
    | some shape => .ok (max 1 (_get_tensor_num_elements shape))

/-- `DEFAULT_SRAM_BYTES` (1 MiB). -/
def DEFAULT_SRAM_BYTES : Int := 1024 * 1024

/-- The loop body of `_get_pe_sram_bytes`: the first element with a matching
name *and* a configured `sram_bytes` wins; otherwise the default applies. -/
def getPeSramLoop : List ProcessingElement → String → Int
  | [], _ => DEFAULT_SRAM_BYTES
  | pe :: rest, pe_name =>
    if pe.name = pe_name then
      match pe.config.sram_bytes with
      | some sram_bytes => sram_bytes
      | none => getPeSramLoop rest pe_name
    else getPeSramLoop rest pe_name

/-- `_get_pe_sram_bytes`. -/
def _get_pe_sram_bytes (platform_config : PlatformConfig) (pe_name : String) : Int :=
  getPeSramLoop platform_config.processing_elements pe_name

/-! ### Timetable nodes, edges, chunking -/

/-- A timetable node: `kind: memory` records carry `{addr, num_bytes}`,
`kind: compute` records carry `{dtype, num_ops}`. -/
inductive TNode where
  | memory (id : String) (op : String) (pe : String) (addr : Int) (num_bytes : Int)
  | compute (id : String) (op : String) (pe : String) (dtype : String) (num_ops : Int)
deriving DecidableEq, Repr

/-- The `id` field of a timetable node. -/
def TNode.id : TNode → String
  | .memory i _ _ _ _ => i
  | .compute i _ _ _ _ => i

/-- The `pe` field of a timetable node. -/
def TNode.pe : TNode → String
  | .memory _ _ p _ _ => p
  | .compute _ _ p _ _ => p

/-- Whether a timetable node is a compute record. -/
def TNode.isCompute : TNode → Bool
  | .memory _ _ _ _ _ => false
  | .compute _ _ _ _ _ => true

/-- The `config.num_bytes` field of a memory node (0 for compute nodes). -/
def TNode.num_bytes : TNode → Int
  | .memory _ _ _ _ nb => nb
  | .compute _ _ _ _ _ => 0

/-- The `config.addr` field of a memory node (0 for compute nodes). -/
def TNode.addr : TNode → Int
  | .memory _ _ _ a _ => a
  | .compute _ _ _ _ _ => 0

/-- The `config.op` field of a timetable node. -/
def TNode.op : TNode → String
  | .memory _ o _ _ _ => o
  | .compute _ o _ _ _ => o

/-- The `config.dtype` field of a compute node (`""` for memory nodes). -/
def TNode.dtype : TNode → String
  | .memory _ _ _ _ _ => ""
  | .compute _ _ _ d _ => d

/-- The `config.num_ops` field of a compute node (0 for memory nodes). -/
def TNode.num_ops : TNode → Int
  | .memory _ _ _ _ _ => 0
  | .compute _ _ _ _ n => n

/-- A timetable edge `{from, to, kind}` (`from`/`to` are node ids). -/
structure TEdge where
  src : String
  dst : String
  kind : String
deriving DecidableEq, Repr

/-- `_split_memory_op`: split a transfer of `total_size_bytes` into
SRAM-capacity chunks.  `num_chunks` is Python's floor division
`(total + sram - 1) // sram`, which raises `ZeroDivisionError` when
`sram_bytes == 0`; `range` of a non-positive count is empty. -/
def _split_memory_op (base_id op_type pe_name : String)
    (base_addr total_size_bytes sram_bytes : Int) : Except String (List TNode) :=
  if sram_bytes = 0 then .error "integer division or modulo by zero"
  else
    let num_chunks := (total_size_bytes + sram_bytes - 1).fdiv sram_bytes
    .ok ((List.range num_chunks.toNat).map (fun (chunk_index : Nat) =>
      let offset := (chunk_index : Int) * sram_bytes
      let chunk_size_bytes := min sram_bytes (total_size_bytes - offset)
      let chunk_id :=
        if num_chunks = 1 then base_id else base_id ++ "_chunk_" ++ natStr chunk_index
      TNode.memory chunk_id op_type pe_name (base_addr + offset) chunk_size_bytes))

/-! ### `onnx_to_gwr_timetable` -/

/-- The per-input (`op_word = "load"`) / per-output (`op_word = "store"`)
loop of the builder: enumerate the tensor-name list (so `index` counts empty
slots too), skip empty names, look up address and size (a missing key is
Python's `KeyError`), and chunk.  The id base is
`node_name ++ "_" ++ op_word ++ "_" ++ index`. -/
def buildMemOps (tensors : List (String × TensorRec))
    (tensor_addresses : List (String × Int)) (node_name op_word pe_name : String)
    (sram_bytes : Int) : List String → Nat → Except String (List TNode)
  | [], _ => .ok []
  | tensor_name :: rest, index =>
    if tensor_name = "" then
      buildMemOps tensors tensor_addresses node_name op_word pe_name sram_bytes rest (index + 1)
    else
      match dictGet? tensor_addresses tensor_name with
      | none => .error ("KeyError: '" ++ tensor_name ++ "'")
      | some addr =>
        match dictGet? tensors tensor_name with
        | none => .error ("KeyError: '" ++ tensor_name ++ "'")
        | some tr =>
          match _split_memory_op (node_name ++ "_" ++ op_word ++ "_" ++ natStr index)
            op_word pe_name addr tr.size_bytes sram_bytes with
          | .error e => .error e
          | .ok ops =>
            match buildMemOps tensors tensor_addresses node_name op_word pe_name sram_bytes
              rest (index + 1) with
            | .error e => .error e
            | .ok restOps => .ok (ops ++ restOps)

/-- The output loop computing the compute record's `num_ops` / `dtype`:
running maximum starting at 1, dtype taken from the last non-empty output
(default `fp32`). -/
def computeFold (tensors : List (String × TensorRec)) :
    List String → Int → String → Except String (Int × String)
  | [], max_num_ops, dtype_str => .ok (max_num_ops, dtype_str)
  | output_name :: rest, max_num_ops, dtype_str =>
    if output_name = "" then computeFold tensors rest max_num_ops dtype_str
    else
      match _calculate_num_ops tensors output_name with
      | .error e => .error e
      | .ok num_ops =>
        let dtype_str2 :=
          match dictGet? tensors output_name with
          | some tr => _dtype_to_string tr.dtype
          | none => dtype_str
        computeFold tensors rest (max max_num_ops num_ops) dtype_str2

/-- The body of the builder's per-node loop: validate the name, pick the PE
at the current round-robin cursor, resolve its SRAM capacity, emit the load
chunks, the compute record, and the store chunks. -/
def lowerNode (tensors : List (String × TensorRec))
    (tensor_addresses : List (String × Int)) (platform_config : PlatformConfig)
    (pe_names : List String) (onnx_node : NodeProto)
    (onnx_node_index current_pe_index : Nat) :
    Except String (List TNode × TNode × List TNode) :=
  if onnx_node.name = "" then
    .error ("Node at index " ++ natStr onnx_node_index ++ " is missing a name")
  else
    let node_name := onnx_node.name
    let pe_name := pe_names.getD current_pe_index ""
    let sram_bytes := _get_pe_sram_bytes platform_config pe_name
    match buildMemOps tensors tensor_addresses node_name "load" pe_name sram_bytes
      onnx_node.input 0 with
    | .error e => .error e
    | .ok loads =>
      match computeFold tensors onnx_node.output 1 "fp32" with
      | .error e => .error e
      | .ok res =>
        let compute := TNode.compute (node_name ++ "_compute")
          (_map_onnx_op_to_gwr_op onnx_node.op_type) pe_name res.2 res.1
        match buildMemOps tensors tensor_addresses node_name "store" pe_name sram_bytes
          onnx_node.output 0 with
        | .error e => .error e
        | .ok stores => .ok (loads, compute, stores)

/-- The edges emitted for one original node: a `data` edge from every load
chunk to the compute record, then one from the compute record to every
store chunk. -/
def nodeEdges (loads : List TNode) (compute : TNode) (stores : List TNode) : List TEdge :=
  loads.map (fun l => ⟨l.id, compute.id, "data"⟩) ++
    stores.map (fun s => ⟨compute.id, s.id, "data"⟩)

/-- The builder's walk over `graph.node`, threading the node index and the
persistent PE round-robin cursor and accumulating nodes and edges in
emission order (loads, compute, stores per node). -/
def buildLoop (tensors : List (String × TensorRec))
    (tensor_addresses : List (String × Int)) (platform_config : PlatformConfig)
    (pe_names : List String) :
    List NodeProto → Nat → Nat → Except String (List TNode × List TEdge)
  | [], _, _ => .ok ([], [])
  | onnx_node :: rest, onnx_node_index, current_pe_index =>
    match lowerNode tensors tensor_addresses platform_config pe_names
      onnx_node onnx_node_index current_pe_index with
    | .error e => .error e
    | .ok (loads, compute, stores) =>
      match buildLoop tensors tensor_addresses platform_config pe_names rest
        (onnx_node_index + 1) ((current_pe_index + 1) % pe_names.length) with
      | .error e => .error e
      | .ok (ns, es) =>
        .ok (loads ++ compute :: stores ++ ns, nodeEdges loads compute stores ++ es)

/-- The emitted timetable: the `{nodes, edges}` mapping. -/
structure Timetable where
  nodes : List TNode
  edges : List TEdge
deriving DecidableEq, Repr

/-- `onnx_to_gwr_timetable`: the full conversion. -/
def onnx_to_gwr_timetable (model : ModelProto) (platform_config : PlatformConfig) :
    Except String Timetable :=
  let tensors := _collect_tensors model
  match _layout_tensors tensors platform_config with
  | .error e => .error e
  | .ok tensor_addresses =>
    if platform_config.processing_elements = [] then
      .error "No processing elements found in platform configuration"
    else
      let pe_names := platform_config.processing_elements.map (fun pe => pe.name)
      match buildLoop tensors tensor_addresses platform_config pe_names model.graph.node 0 0 with
      | .error e => .error e
      | .ok (nodes, edges) => .ok ⟨nodes, edges⟩

/-! ### Derived / specification-side definitions used by the statements -/

/-- The names referenced anywhere in a graph: declared lists, initializers,
and node inputs/outputs. -/
def referencedNames (g : GraphProto) : List String :=
  (g.value_info ++ g.input ++ g.output).map (fun vi => vi.name) ++
    g.initializer.map (fun i => i.name) ++
    (g.node.map (fun nd => nd.input ++ nd.output)).flatten

/-- The last initializer of a given name, the one whose record survives the
overwriting passes of `_collect_tensors`. -/
def lastInit : List Initializer → String → Option Initializer
  | [], _ => none
  | i :: rest, n =>
    match lastInit rest n with
    | some j => some j
    | none => if i.name = n then some i else none

/-- The record the claimed declared-metadata precedence would give a
`ValueInfo` whose type declares both a shape and a dtype. -/
def declaredRec (vi : ValueInfo) : Option TensorRec :=
  match _shape_from_type_proto vi, _dtype_from_type_proto vi with
  | some shape, some dtype => some ⟨some shape, dtype, _get_tensor_size_bytes shape dtype⟩
  | _, _ => none

/-- The id list of one chunked transfer: the unsuffixed base id for a single
chunk, `_chunk_<index>` suffixes otherwise. -/
def chunkIdList (base : String) (num_chunks : Nat) : List String :=
  if num_chunks = 1 then [base]
  else (List.range num_chunks).map (fun j => base ++ "_chunk_" ++ natStr j)

/-- Specification-side formula: the resolved element count of a named
output (1 when the name has no record or no shape). -/
def resolvedElemCount (tensors : List (String × TensorRec)) (output_name : String) : Int :=
  match dictGet? tensors output_name with
  | some tr =>
    match tr.shape with
    | some shape => _get_tensor_num_elements shape
    | none => 1
  | none => 1

/-- Specification-side formula: the resolved dtype string of a named output
(`fp32` when the name has no record). -/
def resolvedDtypeStr (tensors : List (String × TensorRec)) (output_name : String) : String :=
  match dictGet? tensors output_name with
  | some tr => _dtype_to_string tr.dtype
  | none => "fp32"

/-- One allocation event of the device memory allocator's walk. -/
structure AllocEvent where
  tensor : String
  device : String
  addr : Int
  size : Int
deriving DecidableEq, Repr

/-- The allocator's walk as an event trace: same recursion as `allocWalk`,
recording tensor, chosen device, handed-out address and true size. -/
def allocTrace (device_list : List String) :
    List (String × TensorRec) → List (String × Int) → Nat → List AllocEvent
  | [], _, _ => []
  | (tensor_name, tr) :: rest, device_addresses, current_device_index =>
    let device := device_list.getD current_device_index ""
    let addr := (dictGet? device_addresses device).getD 0
    ⟨tensor_name, device, addr, tr.size_bytes⟩ ::
      allocTrace device_list rest
        (dictSet device_addresses device (addr + align64 tr.size_bytes))
        ((current_device_index + 1) % device_list.length)

/-- The events of one device form a chain: each address is the running
cursor, advanced by the 64-byte-aligned size of the event before it. -/
def ChainedFrom (start : Int) : List AllocEvent → Prop
  | [] => True
  | e :: rest => e.addr = start ∧ ChainedFrom (start + align64 e.size) rest

/-! ### Id-grammar definitions (for uniqueness of node ids) -/

/-- A character list that could open another emitted-id suffix: `_load_…`,
`_store_…` or `_compute`. -/
def Starts (l : List Char) : Prop :=
  (∃ t, l = '_' :: 'l' :: t) ∨ (∃ t, l = '_' :: 's' :: t) ∨ (∃ t, l = '_' :: 'c' :: 'o' :: t)

/-- No suffix of `l` opens an id suffix. -/
def Clean (l : List Char) : Prop := ∀ s, s <:+ l → ¬ Starts s

/-- A list whose head, if any, is not a decimal digit. -/
def notDigitLed : List Char → Prop
  | [] => True
  | c :: _ => c.isDigit = false

/-- The suffixes the builder appends to an operation name to form node ids. -/
inductive IdSfx : String → Prop where
  | compute : IdSfx "_compute"
  | load (i : Nat) : IdSfx ("_load_" ++ natStr i)
  | store (i : Nat) : IdSfx ("_store_" ++ natStr i)
  | loadChunk (i j : Nat) : IdSfx ("_load_" ++ natStr i ++ "_chunk_" ++ natStr j)
  | storeChunk (i j : Nat) : IdSfx ("_store_" ++ natStr i ++ "_chunk_" ++ natStr j)

/-- The shape of a memory-node id emitted for slot `i` with keyword `kw`
(`"_load_"` or `"_store_"`). -/
def memIdShape (name kw : String) (i : Nat) (id : String) : Prop :=
  id = name ++ (kw ++ natStr i) ∨ ∃ j, id = name ++ (kw ++ natStr i ++ "_chunk_" ++ natStr j)

/-- The record invariant the resolver maintains: positive byte size and a
present shape. -/
def goodRec (tr : TensorRec) : Prop := 1 ≤ tr.size_bytes ∧ tr.shape.isSome = true

instance (tr : TensorRec) : Decidable (goodRec tr) :=
  inferInstanceAs (Decidable (1 ≤ tr.size_bytes ∧ tr.shape.isSome = true))

/-! ### Concrete example inputs -/

/-- A platform with one memory range (`hbm0` at 4096) and one processing
element `pe0` with 1 MiB of SRAM. -/
def exPlat : PlatformConfig :=
  ⟨[⟨[⟨"hbm0", 4096⟩]⟩], [⟨"pe0", ⟨some (1024 * 1024)⟩⟩]⟩

/-- A graph with one `Add` operation `add0 : x ↦ y`, both tensors declared
`[4] × fp32`. -/
def exAddModel : ModelProto :=
  ⟨⟨[], [⟨"x", some [some 4], some TensorProto.FLOAT⟩],
    [⟨"y", some [some 4], some TensorProto.FLOAT⟩], [],
    [⟨"add0", "Add", ["x"], ["y"]⟩]⟩⟩

/-- The timetable the conversion emits for `exAddModel` on `exPlat`. -/
def exAddTT : Timetable :=
  ⟨[TNode.memory "add0_load_0" "load" "pe0" 4096 16,
    TNode.compute "add0_compute" "add" "pe0" "fp32" 4,
    TNode.memory "add0_store_0" "store" "pe0" 4160 16],
   [⟨"add0_load_0", "add0_compute", "data"⟩, ⟨"add0_compute", "add0_store_0", "data"⟩]⟩

/-- A graph whose single operation has an empty input slot 0 and a tensor in
input slot 1. -/
def exSkipModel : ModelProto :=
  ⟨⟨[], [], [], [], [⟨"n0", "Add", ["", "t"], ["u"]⟩]⟩⟩

/-- A tensor declared `[2] × int8` that is also an initializer with
`dims = [3]`, `data_type = FLOAT`. -/
def exC1Model : ModelProto :=
  ⟨⟨[], [⟨"t", some [some 2], some TensorProto.INT8⟩], [],
    [⟨"t", [3], TensorProto.FLOAT⟩], []⟩⟩

/-- A graph with two operations that share the name `x`. -/
def exC2Model : ModelProto :=
  ⟨⟨[], [], [], [], [⟨"x", "Add", [], []⟩, ⟨"x", "Add", [], []⟩]⟩⟩

/-- A graph with a single named operation reading one tensor. -/
def exC8Model : ModelProto :=
  ⟨⟨[], [], [], [], [⟨"a", "Add", ["t"], []⟩]⟩⟩

/-- A platform whose only processing element declares `sram_bytes = 0`. -/
def exC8Plat : PlatformConfig :=
  ⟨[⟨[⟨"hbm0", 0⟩]⟩], [⟨"pe0", ⟨some 0⟩⟩]⟩

/-- A graph whose second operation is missing its name. -/
def exC8NameModel : ModelProto :=
  ⟨⟨[], [], [], [], [⟨"a", "Add", [], []⟩, ⟨"", "Add", [], []⟩]⟩⟩

/-- Two resolved tensors of 16 and 8 bytes. -/
def exTensors : List (String × TensorRec) :=
  [("a", ⟨some [some 4], TensorProto.FLOAT, 16⟩),
   ("b", ⟨some [some 2], TensorProto.FLOAT, 8⟩)]

/-! ## Proofs -/

/-! ### Decimal strings -/

theorem digitOf_isDigit (d : Nat) : (digitOf d).isDigit = true := by
  unfold digitOf
  split <;> decide

theorem digitOf_inj : ∀ a < 10, ∀ b < 10, digitOf a = digitOf b → a = b := by decide

theorem isDigit_ne {c x : Char} (h : c.isDigit = true) (hx : x.isDigit = false) : c ≠ x := by
  intro e
  subst e
  rw [h] at hx
  cases hx

theorem natCharsAux_small (f n : Nat) (h : n < 10) : natCharsAux f n = [digitOf n] := by
  cases f with
  | zero => rfl
  | succ g =>
    show (if n < 10 then [digitOf n]
      else natCharsAux g (n / 10) ++ [digitOf (n % 10)]) = [digitOf n]
    rw [if_pos h]

theorem natCharsAux_fuel : ∀ n f1 f2 : Nat, n ≤ f1 → n ≤ f2 →
    natCharsAux f1 n = natCharsAux f2 n := by
  intro n
  induction n using Nat.strong_induction_on with
  | _ n ih =>
    intro f1 f2 h1 h2
    by_cases h : n < 10
    · rw [natCharsAux_small _ _ h, natCharsAux_small _ _ h]
    · obtain ⟨g1, rfl⟩ : ∃ g1, f1 = g1 + 1 := ⟨f1 - 1, by omega⟩
      obtain ⟨g2, rfl⟩ : ∃ g2, f2 = g2 + 1 := ⟨f2 - 1, by omega⟩
      show (if n < 10 then [digitOf n] else natCharsAux g1 (n / 10) ++ [digitOf (n % 10)]) =
        (if n < 10 then [digitOf n] else natCharsAux g2 (n / 10) ++ [digitOf (n % 10)])
      rw [if_neg h, if_neg h]
      have hdiv : n / 10 < n := Nat.div_lt_self (by omega) (by omega)
      rw [ih (n / 10) hdiv g1 g2 (by omega) (by omega)]

theorem natChars_lt {n : Nat} (h : n < 10) : natChars n = [digitOf n] :=
  natCharsAux_small n n h

theorem natChars_ge {n : Nat} (h : ¬ n < 10) :
    natChars n = natChars (n / 10) ++ [digitOf (n % 10)] := by
  obtain ⟨g, hg⟩ : ∃ g, n = g + 1 := ⟨n - 1, by omega⟩
  show natCharsAux n n = natCharsAux (n / 10) (n / 10) ++ [digitOf (n % 10)]
  rw [hg]
  show (if g + 1 < 10 then [digitOf (g + 1)]
    else natCharsAux g ((g + 1) / 10) ++ [digitOf ((g + 1) % 10)]) = _
  rw [if_neg (hg ▸ h)]
  rw [natCharsAux_fuel ((g + 1) / 10) g ((g + 1) / 10) (by omega) (le_refl _)]

theorem natChars_ne_nil (n : Nat) : natChars n ≠ [] := by
  by_cases h : n < 10
  · rw [natChars_lt h]
    simp
  · rw [natChars_ge h]
    simp

theorem natChars_digits (n : Nat) : ∀ c ∈ natChars n, c.isDigit = true := by
  induction n using Nat.strong_induction_on with
  | _ n ih =>
    by_cases h : n < 10
    · rw [natChars_lt h]
      intro c hc
      rw [List.mem_singleton] at hc
      subst hc
      exact digitOf_isDigit n
    · rw [natChars_ge h]
      intro c hc
      rcases List.mem_append.mp hc with h2 | h2
      · exact ih (n / 10) (Nat.div_lt_self (by omega) (by omega)) c h2
      · rw [List.mem_singleton] at h2
        subst h2
        exact digitOf_isDigit (n % 10)

theorem natChars_injective : ∀ m n : Nat, natChars m = natChars n → m = n := by
  intro m
  induction m using Nat.strong_induction_on with
  | _ m ih =>
    intro n h
    by_cases hm : m < 10 <;> by_cases hn : n < 10
    · rw [natChars_lt hm, natChars_lt hn] at h
      simp only [List.cons.injEq, and_true] at h
      exact digitOf_inj m hm n hn h
    · exfalso
      rw [natChars_lt hm, natChars_ge hn] at h
      have hlen : (1 : Nat) = (natChars (n / 10)).length + 1 := by
        simpa using congrArg List.length h
      exact natChars_ne_nil (n / 10) (List.length_eq_zero.mp (by omega))
    · exfalso
      rw [natChars_ge hm, natChars_lt hn] at h
      have hlen : (natChars (m / 10)).length + 1 = 1 := by
        simpa using congrArg List.length h
      exact natChars_ne_nil (m / 10) (List.length_eq_zero.mp (by omega))
    · rw [natChars_ge hm, natChars_ge hn] at h
      have h2 := congrArg List.reverse h
      simp only [List.reverse_append, List.reverse_singleton, List.singleton_append,
        List.cons.injEq] at h2
      obtain ⟨hd, ht⟩ := h2
      have hmod := digitOf_inj (m % 10) (Nat.mod_lt _ (by omega)) (n % 10)
        (Nat.mod_lt _ (by omega)) hd
      have hdiv : m / 10 = n / 10 :=
        ih (m / 10) (Nat.div_lt_self (by omega) (by omega)) (n / 10)
          (List.reverse_injective ht)
      omega

theorem natStr_data (n : Nat) : (natStr n).data = natChars n := rfl

theorem natStr_injective {m n : Nat} (h : natStr m = natStr n) : m = n :=
  natChars_injective m n (congrArg String.data h)

/-! ### Dict lemmas -/

theorem dictGet?_set {α : Type} (d : List (String × α)) (k : String) (v : α) (key : String) :
    dictGet? (dictSet d k v) key = if key = k then some v else dictGet? d key := by
  induction d with
  | nil =>
    by_cases h : key = k
    · subst h
      simp [dictSet, dictGet?]
    · have h' : ¬ k = key := fun e => h e.symm
      simp [dictSet, dictGet?, h, h']
  | cons p rest ih =>
    by_cases hp : p.1 = k
    · by_cases hk : key = k
      · subst hk
        simp [dictSet, dictGet?, hp]
      · have h' : ¬ k = key := fun e => hk e.symm
        have hpk : ¬ p.1 = key := by rw [hp]; exact h'
        simp [dictSet, dictGet?, hp, h', hk, hpk]
    · by_cases hq : p.1 = key
      · have hk : ¬ key = k := by rw [← hq]; exact fun e => hp (hq.symm ▸ e)
        simp [dictSet, dictGet?, hp, hq, hk]
      · simp [dictSet, dictGet?, hp, hq, ih]

theorem dictGet?_isSome_iff {α : Type} (d : List (String × α)) (k : String) :
    (dictGet? d k).isSome = true ↔ k ∈ d.map Prod.fst := by
  induction d with
  | nil => simp [dictGet?]
  | cons p rest ih =>
    by_cases h : p.1 = k
    · simp [dictGet?, h]
    · have h' : ¬ k = p.1 := fun e => h e.symm
      simp [dictGet?, h, h', ih]

theorem dictGet?_mem {α : Type} {d : List (String × α)} {k : String} {v : α}
    (h : dictGet? d k = some v) : (k, v) ∈ d := by
  induction d with
  | nil => cases h
  | cons p rest ih =>
    rcases p with ⟨a, b⟩
    by_cases hp : a = k
    · simp only [dictGet?, if_pos hp] at h
      rw [Option.some.injEq] at h
      subst hp
      subst h
      exact List.mem_cons_self _ _
    · simp only [dictGet?, if_neg hp] at h
      exact List.mem_cons_of_mem _ (ih h)

theorem map_fst_dictSet {α : Type} (d : List (String × α)) (k : String) (v : α) :
    (dictSet d k v).map Prod.fst =
      if k ∈ d.map Prod.fst then d.map Prod.fst else d.map Prod.fst ++ [k] := by
  induction d with
  | nil => simp [dictSet]
  | cons p rest ih =>
    by_cases hp : p.1 = k
    · simp [dictSet, hp, eq_comm]
    · have h' : ¬ k = p.1 := fun e => hp e.symm
      by_cases hm : k ∈ rest.map Prod.fst <;>
        simp [dictSet, hp, hm, ih, h']

theorem nodup_map_fst_dictSet {α : Type} {d : List (String × α)} (k : String) (v : α)
    (h : (d.map Prod.fst).Nodup) : ((dictSet d k v).map Prod.fst).Nodup := by
  rw [map_fst_dictSet]
  by_cases hm : k ∈ d.map Prod.fst
  · rwa [if_pos hm]
  · rw [if_neg hm]
    refine List.Nodup.append h (List.nodup_singleton k) ?_
    intro a ha hb
    rw [List.mem_singleton] at hb
    subst hb
    exact hm ha

theorem dictSet_values {α : Type} (P : α → Prop) : ∀ {d : List (String × α)} {k : String}
    {v : α}, (∀ p ∈ d, P p.2) → P v → ∀ p ∈ dictSet d k v, P p.2 := by
  intro d
  induction d with
  | nil =>
    intro k v _ hv p hp
    rw [dictSet, List.mem_singleton] at hp
    subst hp
    exact hv
  | cons q rest ih =>
    intro k v h hv p hp
    by_cases hq : q.1 = k
    · rw [dictSet, if_pos hq] at hp
      rcases List.mem_cons.mp hp with hp | hp
      · subst hp
        exact hv
      · exact h p (List.mem_cons_of_mem q hp)
    · rw [dictSet, if_neg hq] at hp
      rcases List.mem_cons.mp hp with hp | hp
      · subst hp
        exact h p (List.mem_cons_self p rest)
      · exact ih (fun r hr => h r (List.mem_cons_of_mem q hr)) hv p hp

/-! ### Id-grammar lemmas -/

theorem not_starts_head {c : Char} {l : List Char} (h : c ≠ '_') : ¬ Starts (c :: l) := by
  rintro (⟨t, ht⟩ | ⟨t, ht⟩ | ⟨t, ht⟩) <;>
    (injection ht with h1 h2; exact h h1)

theorem not_starts_digit {c : Char} {l : List Char} (h : c.isDigit = true) :
    ¬ Starts ('_' :: c :: l) := by
  rintro (⟨t, ht⟩ | ⟨t, ht⟩ | ⟨t, ht⟩) <;>
    (injection ht with h1 h2; injection h2 with h3 h4; rw [h3] at h; exact absurd h (by decide))

theorem not_starts_nil : ¬ Starts ([] : List Char) := by
  rintro (⟨t, ht⟩ | ⟨t, ht⟩ | ⟨t, ht⟩) <;> cases ht

theorem not_starts_chunk (l : List Char) : ¬ Starts ('_' :: 'c' :: 'h' :: l) := by
  rintro (⟨t, ht⟩ | ⟨t, ht⟩ | ⟨t, ht⟩)
  · injection ht with h1 h2
    injection h2 with h3 h4
    exact absurd h3 (by decide)
  · injection ht with h1 h2
    injection h2 with h3 h4
    exact absurd h3 (by decide)
  · injection ht with h1 h2
    injection h2 with h3 h4
    injection h4 with h5 h6
    exact absurd h5 (by decide)

theorem clean_nil : Clean [] := by
  intro s hs hstart
  rw [List.suffix_nil] at hs
  subst hs
  exact not_starts_nil hstart

theorem clean_cons {c : Char} {m : List Char} (h : Clean m) (hc : ¬ Starts (c :: m)) :
    Clean (c :: m) := by
  intro s hs hstart
  rcases List.suffix_cons_iff.mp hs with hs | hs
  · subst hs
    exact hc hstart
  · exact h s hs hstart

theorem clean_no_underscore {l : List Char} (h : ∀ c ∈ l, c ≠ '_') : Clean l := by
  induction l with
  | nil => exact clean_nil
  | cons c m ih =>
    exact clean_cons (ih fun x hx => h x (List.mem_cons_of_mem c hx))
      (not_starts_head (h c (List.mem_cons_self c m)))

theorem clean_digits {d m : List Char} (hd : ∀ c ∈ d, c.isDigit = true)
    (h : Clean m) : Clean (d ++ m) := by
  induction d with
  | nil => simpa using h
  | cons c d2 ih =>
    rw [List.cons_append]
    refine clean_cons (ih (fun x hx => hd x (List.mem_cons_of_mem c hx))) ?_
    refine not_starts_head ?_
    intro e
    subst e
    cases hd '_' (List.mem_cons_self _ d2)

theorem clean_underscore_digits {d m : List Char} (hne : d ≠ [])
    (hd : ∀ c ∈ d, c.isDigit = true) (hm : Clean m) : Clean ('_' :: (d ++ m)) := by
  obtain ⟨c, t, rfl⟩ := List.exists_cons_of_ne_nil hne
  have h1 : Clean ((c :: t) ++ m) := clean_digits hd hm
  rw [List.cons_append] at h1 ⊢
  exact clean_cons h1 (not_starts_digit (hd c (List.mem_cons_self c t)))

theorem clean_nat (i : Nat) : Clean (natChars i) := by
  have h := clean_digits (natChars_digits i) clean_nil
  rwa [List.append_nil] at h

theorem clean_underscore_nat (i : Nat) : Clean ('_' :: natChars i) := by
  have h := clean_underscore_digits (natChars_ne_nil i) (natChars_digits i) clean_nil
  rwa [List.append_nil] at h

theorem clean_chunk_digits (j : Nat) : Clean ("_chunk_".data ++ natChars j) := by
  have h0 : Clean ('_' :: natChars j) := clean_underscore_nat j
  have h1 : Clean ('k' :: '_' :: natChars j) := clean_cons h0 (not_starts_head (by decide))
  have h2 : Clean ('n' :: 'k' :: '_' :: natChars j) := clean_cons h1 (not_starts_head (by decide))
  have h3 : Clean ('u' :: 'n' :: 'k' :: '_' :: natChars j) :=
    clean_cons h2 (not_starts_head (by decide))
  have h4 : Clean ('h' :: 'u' :: 'n' :: 'k' :: '_' :: natChars j) :=
    clean_cons h3 (not_starts_head (by decide))
  have h5 : Clean ('c' :: 'h' :: 'u' :: 'n' :: 'k' :: '_' :: natChars j) :=
    clean_cons h4 (not_starts_head (by decide))
  exact clean_cons h5 (not_starts_chunk _)

theorem idsfx_starts {s : String} (h : IdSfx s) : Starts s.data := by
  cases h with
  | compute => exact Or.inr (Or.inr ⟨['m', 'p', 'u', 't', 'e'], rfl⟩)
  | load i => exact Or.inl ⟨'o' :: 'a' :: 'd' :: '_' :: natChars i, rfl⟩
  | store i => exact Or.inr (Or.inl ⟨'t' :: 'o' :: 'r' :: 'e' :: '_' :: natChars i, rfl⟩)
  | loadChunk i j =>
    exact Or.inl ⟨'o' :: 'a' :: 'd' :: '_' ::
      ((natChars i ++ "_chunk_".data) ++ natChars j), rfl⟩
  | storeChunk i j =>
    exact Or.inr (Or.inl ⟨'t' :: 'o' :: 'r' :: 'e' :: '_' ::
      ((natChars i ++ "_chunk_".data) ++ natChars j), rfl⟩)

theorem idsfx_clean {s : String} (h : IdSfx s) : ∃ rest, s.data = '_' :: rest ∧ Clean rest := by
  cases h with
  | compute =>
    refine ⟨"compute".data, rfl, clean_no_underscore ?_⟩
    decide
  | load i =>
    refine ⟨'l' :: 'o' :: 'a' :: 'd' :: '_' :: natChars i, rfl, ?_⟩
    have h0 := clean_underscore_nat i
    have h1 := clean_cons h0 (not_starts_head (show 'd' ≠ '_' by decide))
    have h2 := clean_cons h1 (not_starts_head (show 'a' ≠ '_' by decide))
    have h3 := clean_cons h2 (not_starts_head (show 'o' ≠ '_' by decide))
    exact clean_cons h3 (not_starts_head (show 'l' ≠ '_' by decide))
  | store i =>
    refine ⟨'s' :: 't' :: 'o' :: 'r' :: 'e' :: '_' :: natChars i, rfl, ?_⟩
    have h0 := clean_underscore_nat i
    have h1 := clean_cons h0 (not_starts_head (show 'e' ≠ '_' by decide))
    have h2 := clean_cons h1 (not_starts_head (show 'r' ≠ '_' by decide))
    have h3 := clean_cons h2 (not_starts_head (show 'o' ≠ '_' by decide))
    have h4 := clean_cons h3 (not_starts_head (show 't' ≠ '_' by decide))
    exact clean_cons h4 (not_starts_head (show 's' ≠ '_' by decide))
  | loadChunk i j =>
    refine ⟨'l' :: 'o' :: 'a' :: 'd' :: '_' ::
      ((natChars i ++ "_chunk_".data) ++ natChars j), rfl, ?_⟩
    rw [List.append_assoc]
    have h0 : Clean ('_' :: (natChars i ++ ("_chunk_".data ++ natChars j))) :=
      clean_underscore_digits (natChars_ne_nil i) (natChars_digits i) (clean_chunk_digits j)
    have h1 := clean_cons h0 (not_starts_head (show 'd' ≠ '_' by decide))
    have h2 := clean_cons h1 (not_starts_head (show 'a' ≠ '_' by decide))
    have h3 := clean_cons h2 (not_starts_head (show 'o' ≠ '_' by decide))
    exact clean_cons h3 (not_starts_head (show 'l' ≠ '_' by decide))
  | storeChunk i j =>
    refine ⟨'s' :: 't' :: 'o' :: 'r' :: 'e' :: '_' ::
      ((natChars i ++ "_chunk_".data) ++ natChars j), rfl, ?_⟩
    rw [List.append_assoc]
    have h0 : Clean ('_' :: (natChars i ++ ("_chunk_".data ++ natChars j))) :=
      clean_underscore_digits (natChars_ne_nil i) (natChars_digits i) (clean_chunk_digits j)
    have h1 := clean_cons h0 (not_starts_head (show 'e' ≠ '_' by decide))
    have h2 := clean_cons h1 (not_starts_head (show 'r' ≠ '_' by decide))
    have h3 := clean_cons h2 (not_starts_head (show 'o' ≠ '_' by decide))
    have h4 := clean_cons h3 (not_starts_head (show 't' ≠ '_' by decide))
    exact clean_cons h4 (not_starts_head (show 's' ≠ '_' by decide))

theorem idsfx_append_ne {n1 n2 s1 s2 : String} (h1 : IdSfx s1) (h2 : IdSfx s2)
    (hne : n1 ≠ n2) : n1 ++ s1 ≠ n2 ++ s2 := by
  intro he
  have hd : n1.data ++ s1.data = n2.data ++ s2.data := by
    have h := congrArg String.data he
    simpa [String.data_append] using h
  rcases List.append_eq_append_iff.mp hd with ⟨a, ha, hs⟩ | ⟨a, ha, hs⟩
  · cases a with
    | nil =>
      exact hne (String.ext (show n1.data = n2.data by rw [ha, List.append_nil]))
    | cons c t =>
      obtain ⟨rest1, hrest1, hclean⟩ := idsfx_clean h1
      rw [hrest1, List.cons_append] at hs
      injection hs with hc ht
      exact hclean s2.data ⟨t, ht.symm⟩ (idsfx_starts h2)
  · cases a with
    | nil =>
      exact hne (String.ext (show n1.data = n2.data by rw [ha, List.append_nil]))
    | cons c t =>
      obtain ⟨rest2, hrest2, hclean⟩ := idsfx_clean h2
      rw [hrest2, List.cons_append] at hs
      injection hs with hc ht
      exact hclean s1.data ⟨t, ht.symm⟩ (idsfx_starts h1)

theorem string_append_left_cancel {s a b : String} (h : s ++ a = s ++ b) : a = b := by
  apply String.ext
  have hd := congrArg String.data h
  simp only [String.data_append] at hd
  exact List.append_cancel_left hd

theorem digit_run_eq : ∀ {d d' r r' : List Char},
    (∀ c ∈ d, c.isDigit = true) → (∀ c ∈ d', c.isDigit = true) →
    notDigitLed r → notDigitLed r' → d ++ r = d' ++ r' → d = d' ∧ r = r' := by
  intro d
  induction d with
  | nil =>
    intro d' r r' _ hd' hr hr' h
    cases d' with
    | nil => simpa using h
    | cons c t =>
      exfalso
      rw [List.nil_append, List.cons_append] at h
      subst h
      have hc : c.isDigit = false := hr
      rw [hd' c (List.mem_cons_self c t)] at hc
      cases hc
  | cons c t ih =>
    intro d' r r' hd hd' hr hr' h
    cases d' with
    | nil =>
      exfalso
      rw [List.nil_append, List.cons_append] at h
      rw [← h] at hr'
      have hc : c.isDigit = false := hr'
      rw [hd c (List.mem_cons_self c t)] at hc
      cases hc
    | cons c' t' =>
      rw [List.cons_append, List.cons_append] at h
      injection h with hc htl
      obtain ⟨e1, e2⟩ :=
        ih (fun x hx => hd x (List.mem_cons_of_mem c hx))
          (fun x hx => hd' x (List.mem_cons_of_mem c' hx)) hr hr' htl
      exact ⟨by rw [hc, e1], e2⟩

theorem notDigitLed_underscore (l : List Char) : notDigitLed ('_' :: l) := by
  show ('_').isDigit = false
  decide

theorem notDigitLed_nil : notDigitLed ([] : List Char) := trivial

theorem natChars_append_inj {i i' : Nat} {r r' : List Char} (hr : notDigitLed r)
    (hr' : notDigitLed r') (h : natChars i ++ r = natChars i' ++ r') : i = i' ∧ r = r' := by
  obtain ⟨e1, e2⟩ := digit_run_eq (natChars_digits i) (natChars_digits i') hr hr' h
  exact ⟨natChars_injective _ _ e1, e2⟩

theorem memIdShape_index_eq {name kw : String} {i i' : Nat} {id : String}
    (h1 : memIdShape name kw i id) (h2 : memIdShape name kw i' id) : i = i' := by
  rcases h1 with h1 | ⟨j1, h1⟩ <;> rcases h2 with h2 | ⟨j2, h2⟩
  · rw [h1] at h2
    exact natStr_injective (string_append_left_cancel (string_append_left_cancel h2))
  · rw [h1] at h2
    have hx := string_append_left_cancel h2
    have hd := congrArg String.data hx
    simp only [String.data_append, natStr_data, List.append_assoc] at hd
    have hd2 := List.append_cancel_left hd
    rw [← List.append_nil (natChars i)] at hd2
    exact (natChars_append_inj notDigitLed_nil (notDigitLed_underscore _) hd2).1
  · rw [h1] at h2
    have hx := string_append_left_cancel h2
    have hd := congrArg String.data hx
    simp only [String.data_append, natStr_data, List.append_assoc] at hd
    have hd2 := List.append_cancel_left hd
    rw [← List.append_nil (natChars i')] at hd2
    exact (natChars_append_inj (notDigitLed_underscore _) notDigitLed_nil hd2).1
  · rw [h1] at h2
    have hx := string_append_left_cancel h2
    have hd := congrArg String.data hx
    simp only [String.data_append, natStr_data, List.append_assoc] at hd
    have hd2 := List.append_cancel_left hd
    exact (natChars_append_inj (notDigitLed_underscore _) (notDigitLed_underscore _) hd2).1

theorem memIdShape_ne {name kw : String} {i i' : Nat} {id1 id2 : String}
    (h1 : memIdShape name kw i id1) (h2 : memIdShape name kw i' id2) (hne : i ≠ i') :
    id1 ≠ id2 := fun he => hne (memIdShape_index_eq h1 (he ▸ h2))

theorem memIdShape_load_store_ne {name : String} {i i' : Nat} {id1 id2 : String}
    (h1 : memIdShape name "_load_" i id1) (h2 : memIdShape name "_store_" i' id2) :
    id1 ≠ id2 := by
  intro he
  have hx : ∃ A B : String, name ++ ("_load_" ++ A) = name ++ ("_store_" ++ B) := by
    rcases h1 with h1 | ⟨j1, h1⟩ <;> rcases h2 with h2 | ⟨j2, h2⟩ <;>
      rw [h1, h2] at he <;> (try simp only [String.append_assoc] at he) <;>
      exact ⟨_, _, he⟩
  obtain ⟨A, B, hAB⟩ := hx
  have hc := congrArg String.data (string_append_left_cancel hAB)
  simp only [String.data_append] at hc
  simp only [List.cons_append, List.nil_append] at hc
  injection hc with hc1 hc2
  injection hc2 with hc3 hc4
  exact absurd hc3 (by decide)

theorem memIdShape_compute_ne {name kw : String} {i : Nat} {id : String}
    (hkw : kw = "_load_" ∨ kw = "_store_") (h : memIdShape name kw i id) :
    id ≠ name ++ "_compute" := by
  intro he
  have hx : ∃ A : String, name ++ (kw ++ A) = name ++ "_compute" := by
    rcases h with h | ⟨j, h⟩ <;> rw [h] at he <;>
      (try simp only [String.append_assoc] at he) <;> exact ⟨_, he⟩
  obtain ⟨A, hA⟩ := hx
  have hc := congrArg String.data (string_append_left_cancel hA)
  simp only [String.data_append] at hc
  rcases hkw with rfl | rfl <;>
  · simp only [List.cons_append, List.nil_append] at hc
    injection hc with hc1 hc2
    injection hc2 with hc3 hc4
    exact absurd hc3 (by decide)

theorem memIdShape_idsfx {name kw : String} {i : Nat} {id : String}
    (hkw : kw = "_load_" ∨ kw = "_store_") (h : memIdShape name kw i id) :
    ∃ s, IdSfx s ∧ id = name ++ s := by
  rcases hkw with rfl | rfl <;> rcases h with h | ⟨j, h⟩
  · exact ⟨_, IdSfx.load i, h⟩
  · exact ⟨_, IdSfx.loadChunk i j, h⟩
  · exact ⟨_, IdSfx.store i, h⟩
  · exact ⟨_, IdSfx.storeChunk i j, h⟩

theorem chunkIdList_nodup (base : String) (n : Nat) : (chunkIdList base n).Nodup := by
  unfold chunkIdList
  split
  · exact List.nodup_singleton base
  · refine List.Nodup.map ?_ (List.nodup_range n)
    intro a b hab
    exact natStr_injective (string_append_left_cancel hab)

theorem chunkIdList_shape {base : String} {n : Nat} :
    ∀ id ∈ chunkIdList base n, id = base ∨ ∃ j, id = base ++ "_chunk_" ++ natStr j := by
  intro id hid
  unfold chunkIdList at hid
  split at hid
  · rw [List.mem_singleton] at hid
    exact Or.inl hid
  · rw [List.mem_map] at hid
    obtain ⟨j, _, hj⟩ := hid
    exact Or.inr ⟨j, hj.symm⟩

theorem chunkIdList_memIdShape {name kw : String} {i : Nat} {n : Nat} :
    ∀ id ∈ chunkIdList (name ++ (kw ++ natStr i)) n, memIdShape name kw i id := by
  intro id hid
  rcases chunkIdList_shape id hid with h | ⟨j, h⟩
  · exact Or.inl h
  · right
    exact ⟨j, by rw [h]; simp [String.append_assoc]⟩

/-! ### Resolver lemmas -/

theorem one_le_num_elements (shape : List (Option Int)) :
    1 ≤ _get_tensor_num_elements shape := by
  suffices h : ∀ (l : List (Option Int)) (acc : Int), 1 ≤ acc →
      1 ≤ l.foldl (fun num_elements dim =>
        match dim with
        | none => num_elements * 1
        | some d => if d ≤ 0 then num_elements * 1 else num_elements * d) acc by
    exact h shape 1 le_rfl
  intro l
  induction l with
  | nil => intro acc h; exact h
  | cons dim rest ih =>
    intro acc h
    rw [List.foldl_cons]
    cases dim with
    | none => exact ih _ (by simpa using h)
    | some d =>
      by_cases hd : d ≤ 0
      · simp only [if_pos hd]
        exact ih _ (by simpa using h)
      · simp only [if_neg hd]
        exact ih _ (by nlinarith)

theorem one_le_dtypeSizeOf (d : Nat) : 1 ≤ dtypeSizeOf d := by
  unfold dtypeSizeOf
  cases h : List.find? (fun p => p.1 = d) _DTYPE_SIZES with
  | none => simp
  | some p =>
    have hp := List.mem_of_find?_eq_some h
    have hall : ∀ q ∈ _DTYPE_SIZES, 1 ≤ q.2 := by decide
    simpa using hall p hp

theorem goodRec_mk (shape : List (Option Int)) (dtype : Nat) :
    goodRec ⟨some shape, dtype, _get_tensor_size_bytes shape dtype⟩ := by
  refine ⟨?_, rfl⟩
  show (1 : Int) ≤ _get_tensor_size_bytes shape dtype
  unfold _get_tensor_size_bytes
  have h1 := one_le_num_elements shape
  have h2 : (1 : Int) ≤ (dtypeSizeOf dtype : Int) := by
    exact_mod_cast one_le_dtypeSizeOf dtype
  nlinarith

theorem declaredStep_good (imap : List (String × Initializer)) (vi : ValueInfo) :
    goodRec (declaredStep imap vi) := goodRec_mk _ _

theorem initRec_good (init : Initializer) : goodRec (initRec init) := goodRec_mk _ _

theorem placeholderRec_good : goodRec placeholderRec := goodRec_mk _ _

theorem dictGet?_set_isSome {α : Type} {d : List (String × α)} {key : String} (k : String)
    (v : α) (h : (dictGet? d key).isSome = true) :
    (dictGet? (dictSet d k v) key).isSome = true := by
  rw [dictGet?_set]
  by_cases e : key = k <;> simp [e, h]

theorem collectDeclared_isSome {imap : List (String × Initializer)} :
    ∀ {vis : List ValueInfo} {t0 : List (String × TensorRec)} {name : String},
    (dictGet? t0 name).isSome = true →
    (dictGet? (collectDeclared imap vis t0) name).isSome = true := by
  intro vis
  induction vis with
  | nil => intro t0 name h; exact h
  | cons vi rest ih =>
    intro t0 name h
    exact ih (dictGet?_set_isSome _ _ h)

theorem collectDeclared_mem {imap : List (String × Initializer)} :
    ∀ {vis : List ValueInfo} {t0 : List (String × TensorRec)} {name : String},
    name ∈ vis.map ValueInfo.name →
    (dictGet? (collectDeclared imap vis t0) name).isSome = true := by
  intro vis
  induction vis with
  | nil => intro t0 name h; cases h
  | cons vi rest ih =>
    intro t0 name h
    rw [List.map_cons, List.mem_cons] at h
    by_cases e : name ∈ rest.map ValueInfo.name
    · exact ih e
    · have hn : name = vi.name := by tauto
      subst hn
      show (dictGet? (collectDeclared imap rest
        (dictSet t0 vi.name (declaredStep imap vi))) vi.name).isSome = true
      refine collectDeclared_isSome ?_
      rw [dictGet?_set]
      simp

theorem collectDeclared_good {imap : List (String × Initializer)} :
    ∀ {vis : List ValueInfo} {t0 : List (String × TensorRec)},
    (∀ p ∈ t0, goodRec p.2) → ∀ p ∈ collectDeclared imap vis t0, goodRec p.2 := by
  intro vis
  induction vis with
  | nil => intro t0 h; exact h
  | cons vi rest ih =>
    intro t0 h
    exact ih (dictSet_values goodRec h (declaredStep_good imap vi))

theorem collectDeclared_nodup {imap : List (String × Initializer)} :
    ∀ {vis : List ValueInfo} {t0 : List (String × TensorRec)},
    (t0.map Prod.fst).Nodup → ((collectDeclared imap vis t0).map Prod.fst).Nodup := by
  intro vis
  induction vis with
  | nil => intro t0 h; exact h
  | cons vi rest ih =>
    intro t0 h
    exact ih (nodup_map_fst_dictSet _ _ h)

theorem collectInitializers_get :
    ∀ {inits : List Initializer} {t0 : List (String × TensorRec)} {name : String},
    dictGet? (collectInitializers inits t0) name =
      match lastInit inits name with
      | some init => some (initRec init)
      | none => dictGet? t0 name := by
  intro inits
  induction inits with
  | nil => intro t0 name; rfl
  | cons i rest ih =>
    intro t0 name
    have hstep : collectInitializers (i :: rest) t0 =
        collectInitializers rest (dictSet t0 i.name (initRec i)) := rfl
    rw [hstep, ih]
    cases hL : lastInit rest name with
    | some j => simp only [lastInit, hL]
    | none =>
      simp only [lastInit, hL]
      by_cases e : i.name = name
      · rw [if_pos e, dictGet?_set, if_pos e.symm]
      · rw [if_neg e, dictGet?_set, if_neg (fun x => e x.symm)]

theorem collectInitializers_isSome {inits : List Initializer}
    {t0 : List (String × TensorRec)} {name : String}
    (h : (dictGet? t0 name).isSome = true) :
    (dictGet? (collectInitializers inits t0) name).isSome = true := by
  rw [collectInitializers_get]
  cases hL : lastInit inits name with
  | some j => simp
  | none => simpa using h

theorem lastInit_mem : ∀ {inits : List Initializer} {name : String},
    name ∈ inits.map Initializer.name → ∃ j, lastInit inits name = some j := by
  intro inits
  induction inits with
  | nil => intro name h; cases h
  | cons i rest ih =>
    intro name h
    rw [List.map_cons, List.mem_cons] at h
    by_cases e : name ∈ rest.map Initializer.name
    · obtain ⟨j, hj⟩ := ih e
      exact ⟨j, by simp only [lastInit, hj]⟩
    · have hn : name = i.name := by tauto
      cases hL : lastInit rest name with
      | some j => exact ⟨j, by simp only [lastInit, hL]⟩
      | none =>
        refine ⟨i, ?_⟩
        simp only [lastInit, hL]
        rw [if_pos hn.symm]

theorem collectInitializers_good {inits : List Initializer} :
    ∀ {t0 : List (String × TensorRec)},
    (∀ p ∈ t0, goodRec p.2) → ∀ p ∈ collectInitializers inits t0, goodRec p.2 := by
  induction inits with
  | nil => intro t0 h; exact h
  | cons i rest ih =>
    intro t0 h
    exact ih (dictSet_values goodRec h (initRec_good i))

theorem collectInitializers_nodup {inits : List Initializer} :
    ∀ {t0 : List (String × TensorRec)},
    (t0.map Prod.fst).Nodup → ((collectInitializers inits t0).map Prod.fst).Nodup := by
  induction inits with
  | nil => intro t0 h; exact h
  | cons i rest ih =>
    intro t0 h
    exact ih (nodup_map_fst_dictSet _ _ h)

theorem addPlaceholder_get_of_isSome {t0 : List (String × TensorRec)} {name nm : String}
    (h : (dictGet? t0 name).isSome = true) :
    dictGet? (addPlaceholder t0 nm) name = dictGet? t0 name := by
  unfold addPlaceholder
  split
  · rfl
  · split
    · rfl
    · rename_i h1 h2
      rw [dictGet?_set, if_neg]
      intro e
      subst e
      exact h2 h

theorem addPlaceholder_isSome {t0 : List (String × TensorRec)} {name nm : String}
    (h : (dictGet? t0 name).isSome = true) :
    (dictGet? (addPlaceholder t0 nm) name).isSome = true := by
  rw [addPlaceholder_get_of_isSome h]
  exact h

theorem addPlaceholder_self_isSome {t0 : List (String × TensorRec)} {nm : String}
    (hne : nm ≠ "") : (dictGet? (addPlaceholder t0 nm) nm).isSome = true := by
  unfold addPlaceholder
  rw [if_neg hne]
  split
  · assumption
  · rw [dictGet?_set]
    simp

theorem foldPlaceholder_get_of_isSome :
    ∀ {names : List String} {t0 : List (String × TensorRec)} {name : String},
    (dictGet? t0 name).isSome = true →
    dictGet? (names.foldl addPlaceholder t0) name = dictGet? t0 name := by
  intro names
  induction names with
  | nil => intro t0 name _; rfl
  | cons nm rest ih =>
    intro t0 name h
    rw [List.foldl_cons, ih (addPlaceholder_isSome h), addPlaceholder_get_of_isSome h]

theorem foldPlaceholder_isSome {names : List String} {t0 : List (String × TensorRec)}
    {name : String} (h : (dictGet? t0 name).isSome = true) :
    (dictGet? (names.foldl addPlaceholder t0) name).isSome = true := by
  rw [foldPlaceholder_get_of_isSome h]
  exact h

theorem foldPlaceholder_covers :
    ∀ {names : List String} {t0 : List (String × TensorRec)} {name : String},
    name ∈ names → name ≠ "" →
    (dictGet? (names.foldl addPlaceholder t0) name).isSome = true := by
  intro names
  induction names with
  | nil => intro t0 name h; cases h
  | cons nm rest ih =>
    intro t0 name h hne
    rw [List.mem_cons] at h
    rw [List.foldl_cons]
    by_cases e : name = nm
    · subst e
      exact foldPlaceholder_isSome (addPlaceholder_self_isSome hne)
    · exact ih (by tauto) hne

theorem addPlaceholder_good {t0 : List (String × TensorRec)} {nm : String}
    (h : ∀ p ∈ t0, goodRec p.2) : ∀ p ∈ addPlaceholder t0 nm, goodRec p.2 := by
  unfold addPlaceholder
  split
  · exact h
  · split
    · exact h
    · exact dictSet_values goodRec h placeholderRec_good

theorem addPlaceholder_nodup {t0 : List (String × TensorRec)} {nm : String}
    (h : (t0.map Prod.fst).Nodup) : ((addPlaceholder t0 nm).map Prod.fst).Nodup := by
  unfold addPlaceholder
  split
  · exact h
  · split
    · exact h
    · exact nodup_map_fst_dictSet _ _ h

theorem foldPlaceholder_good :
    ∀ {names : List String} {t0 : List (String × TensorRec)},
    (∀ p ∈ t0, goodRec p.2) → ∀ p ∈ names.foldl addPlaceholder t0, goodRec p.2 := by
  intro names
  induction names with
  | nil => intro t0 h; exact h
  | cons nm rest ih =>
    intro t0 h
    exact ih (addPlaceholder_good h)

theorem foldPlaceholder_nodup :
    ∀ {names : List String} {t0 : List (String × TensorRec)},
    (t0.map Prod.fst).Nodup → ((names.foldl addPlaceholder t0).map Prod.fst).Nodup := by
  intro names
  induction names with
  | nil => intro t0 h; exact h
  | cons nm rest ih =>
    intro t0 h
    exact ih (addPlaceholder_nodup h)

theorem collectNodeTensors_get_of_isSome :
    ∀ {nodes : List NodeProto} {t0 : List (String × TensorRec)} {name : String},
    (dictGet? t0 name).isSome = true →
    dictGet? (collectNodeTensors nodes t0) name = dictGet? t0 name := by
  intro nodes
  induction nodes with
  | nil => intro t0 name _; rfl
  | cons nd rest ih =>
    intro t0 name h
    have hstep : collectNodeTensors (nd :: rest) t0 =
        collectNodeTensors rest ((nd.input ++ nd.output).foldl addPlaceholder t0) := rfl
    rw [hstep, ih (foldPlaceholder_isSome h), foldPlaceholder_get_of_isSome h]

theorem collectNodeTensors_isSome {nodes : List NodeProto}
    {t0 : List (String × TensorRec)} {name : String}
    (h : (dictGet? t0 name).isSome = true) :
    (dictGet? (collectNodeTensors nodes t0) name).isSome = true := by
  rw [collectNodeTensors_get_of_isSome h]
  exact h

theorem collectNodeTensors_covers :
    ∀ {nodes : List NodeProto} {t0 : List (String × TensorRec)} {name : String}
    {nd : NodeProto}, nd ∈ nodes → name ∈ nd.input ++ nd.output → name ≠ "" →
    (dictGet? (collectNodeTensors nodes t0) name).isSome = true := by
  intro nodes
  induction nodes with
  | nil => intro t0 name nd h; cases h
  | cons nd0 rest ih =>
    intro t0 name nd h hmem hne
    rcases List.mem_cons.mp h with h | h
    · subst h
      show (dictGet? (collectNodeTensors rest
        ((nd.input ++ nd.output).foldl addPlaceholder t0)) name).isSome = true
      exact collectNodeTensors_isSome (foldPlaceholder_covers hmem hne)
    · exact ih h hmem hne

theorem collectNodeTensors_good {nodes : List NodeProto} :
    ∀ {t0 : List (String × TensorRec)},
    (∀ p ∈ t0, goodRec p.2) → ∀ p ∈ collectNodeTensors nodes t0, goodRec p.2 := by
  induction nodes with
  | nil => intro t0 h; exact h
  | cons nd rest ih =>
    intro t0 h
    exact ih (foldPlaceholder_good h)

theorem collectNodeTensors_nodup {nodes : List NodeProto} :
    ∀ {t0 : List (String × TensorRec)},
    (t0.map Prod.fst).Nodup → ((collectNodeTensors nodes t0).map Prod.fst).Nodup := by
  induction nodes with
  | nil => intro t0 h; exact h
  | cons nd rest ih =>
    intro t0 h
    exact ih (foldPlaceholder_nodup h)

theorem collect_tensors_good (model : ModelProto) :
    ∀ p ∈ _collect_tensors model, goodRec p.2 :=
  collectNodeTensors_good
    (collectInitializers_good (collectDeclared_good (by intro p hp; cases hp)))

theorem collect_tensors_nodup (model : ModelProto) :
    ((_collect_tensors model).map Prod.fst).Nodup :=
  collectNodeTensors_nodup (collectInitializers_nodup (collectDeclared_nodup (by simp)))

theorem collect_tensors_covers (model : ModelProto) {name : String}
    (h : name ∈ referencedNames model.graph) (hne : name ≠ "") :
    (dictGet? (_collect_tensors model) name).isSome = true := by
  unfold referencedNames at h
  rw [List.append_assoc, List.mem_append, List.mem_append] at h
  rcases h with h | h | h
  · exact collectNodeTensors_isSome (collectInitializers_isSome (collectDeclared_mem h))
  · obtain ⟨j, hj⟩ := lastInit_mem h
    refine collectNodeTensors_isSome ?_
    rw [collectInitializers_get, hj]
    rfl
  · rw [List.mem_flatten] at h
    obtain ⟨l, hl, hmem⟩ := h
    rw [List.mem_map] at hl
    obtain ⟨nd, hnd, hl⟩ := hl
    subst hl
    exact collectNodeTensors_covers hnd hmem hne

theorem collect_tensors_lookup_good (model : ModelProto) {name : String} {tr : TensorRec}
    (h : dictGet? (_collect_tensors model) name = some tr) : goodRec tr :=
  collect_tensors_good model _ (dictGet?_mem h)

theorem calculate_num_ops_ok {tensors : List (String × TensorRec)} {name : String}
    {tr : TensorRec} (h : dictGet? tensors name = some tr) (hg : goodRec tr) :
    _calculate_num_ops tensors name = Except.ok (max 1 (_get_tensor_num_elements
      (tr.shape.getD []))) := by
  unfold _calculate_num_ops
  rw [h]
  obtain ⟨c, hc⟩ := Option.isSome_iff_exists.mp hg.2
  rw [hc]
  simp [hc]

/-! ### Sorting lemmas -/

theorem insertDescBySize_perm (x : String × TensorRec) (l : List (String × TensorRec)) :
    List.Perm (insertDescBySize x l) (x :: l) := by
  induction l with
  | nil => exact List.Perm.refl _
  | cons y ys ih =>
    unfold insertDescBySize
    split
    · exact (ih.cons y).trans (List.Perm.swap x y ys)
    · exact List.Perm.refl _

theorem sortDescBySize_perm (l : List (String × TensorRec)) :
    List.Perm (sortDescBySize l) l := by
  induction l with
  | nil => exact List.Perm.refl _
  | cons x xs ih => exact (insertDescBySize_perm x (sortDescBySize xs)).trans (ih.cons x)

theorem insertDescBySize_sorted {x : String × TensorRec} {l : List (String × TensorRec)}
    (h : l.Pairwise (fun a b => b.2.size_bytes ≤ a.2.size_bytes)) :
    (insertDescBySize x l).Pairwise (fun a b => b.2.size_bytes ≤ a.2.size_bytes) := by
  induction l with
  | nil => simp [insertDescBySize]
  | cons y ys ih =>
    rw [List.pairwise_cons] at h
    obtain ⟨hy, hys⟩ := h
    unfold insertDescBySize
    split
    · rename_i hcmp
      rw [List.pairwise_cons]
      refine ⟨?_, ih hys⟩
      intro b hb
      have hmem := (insertDescBySize_perm x ys).mem_iff.mp hb
      rcases List.mem_cons.mp hmem with rfl | hb2
      · exact le_of_lt hcmp
      · exact hy b hb2
    · rename_i hcmp
      rw [List.pairwise_cons]
      refine ⟨?_, List.pairwise_cons.mpr ⟨hy, hys⟩⟩
      intro b hb
      rcases List.mem_cons.mp hb with rfl | hb2
      · exact not_lt.mp hcmp
      · exact le_trans (hy b hb2) (not_lt.mp hcmp)

theorem sortDescBySize_sorted (l : List (String × TensorRec)) :
    (sortDescBySize l).Pairwise (fun a b => b.2.size_bytes ≤ a.2.size_bytes) := by
  induction l with
  | nil => exact List.Pairwise.nil
  | cons x xs ih => exact insertDescBySize_sorted ih

theorem insertDescBySize_filter_eq {x : String × TensorRec} {s : Int}
    (hx : x.2.size_bytes = s) (l : List (String × TensorRec)) :
    (insertDescBySize x l).filter (fun p => decide (p.2.size_bytes = s)) =
      x :: l.filter (fun p => decide (p.2.size_bytes = s)) := by
  induction l with
  | nil => simp [insertDescBySize, List.filter, hx]
  | cons y ys ih =>
    unfold insertDescBySize
    split
    · rename_i hcmp
      have hy : ¬ y.2.size_bytes = s := by
        intro e
        rw [hx, e] at hcmp
        exact lt_irrefl _ hcmp
      rw [List.filter_cons, if_neg (by simpa using hy), ih,
        List.filter_cons, if_neg (by simpa using hy)]
    · rw [List.filter_cons, if_pos (by simpa using hx)]

theorem insertDescBySize_filter_ne {x : String × TensorRec} {s : Int}
    (hx : ¬ x.2.size_bytes = s) (l : List (String × TensorRec)) :
    (insertDescBySize x l).filter (fun p => decide (p.2.size_bytes = s)) =
      l.filter (fun p => decide (p.2.size_bytes = s)) := by
  induction l with
  | nil => simp [insertDescBySize, List.filter, hx]
  | cons y ys ih =>
    unfold insertDescBySize
    split
    · rw [List.filter_cons, ih, List.filter_cons]
    · rw [List.filter_cons, if_neg (by simpa using hx)]

theorem sortDescBySize_stable (l : List (String × TensorRec)) (s : Int) :
    (sortDescBySize l).filter (fun p => decide (p.2.size_bytes = s)) =
      l.filter (fun p => decide (p.2.size_bytes = s)) := by
  induction l with
  | nil => rfl
  | cons x xs ih =>
    show (insertDescBySize x (sortDescBySize xs)).filter _ = _
    by_cases hx : x.2.size_bytes = s
    · rw [insertDescBySize_filter_eq hx, ih, List.filter_cons, if_pos (by simpa using hx)]
    · rw [insertDescBySize_filter_ne hx, ih, List.filter_cons, if_neg (by simpa using hx)]

/-! ### Allocator lemmas -/

theorem dictGet?_append {α : Type} (d1 d2 : List (String × α)) (k : String) :
    dictGet? (d1 ++ d2) k = (dictGet? d1 k).or (dictGet? d2 k) := by
  induction d1 with
  | nil => simp [dictGet?]
  | cons p rest ih =>
    by_cases h : p.1 = k <;> simp [dictGet?, h, ih]

theorem dictSet_append_of_fresh {α : Type} {d : List (String × α)} {k : String} {v : α}
    (h : (dictGet? d k).isSome = false) : dictSet d k v = d ++ [(k, v)] := by
  induction d with
  | nil => rfl
  | cons p rest ih =>
    by_cases hp : p.1 = k
    · rw [dictGet?, if_pos hp] at h
      cases h
    · rw [dictGet?, if_neg hp] at h
      rw [dictSet, if_neg hp, ih h, List.cons_append]

theorem align64_ge (s : Int) : s ≤ align64 s := by
  unfold align64
  rw [Int.fdiv_eq_ediv _ (by norm_num)]
  have h1 : (s + 63) % 64 < 64 := Int.emod_lt_of_pos _ (by norm_num)
  have h2 : 0 ≤ (s + 63) % 64 := Int.emod_nonneg _ (by norm_num)
  have h3 := Int.ediv_add_emod (s + 63) 64
  omega

theorem align64_dvd (s : Int) : 64 ∣ align64 s :=
  ⟨(s + 63).fdiv 64, by unfold align64; ring⟩

theorem allocWalk_nil (devs : List String) (da ta : List (String × Int)) (idx : Nat) :
    allocWalk devs [] da idx ta = ta := rfl

theorem allocWalk_cons (devs : List String) (nm : String) (tr : TensorRec)
    (rest : List (String × TensorRec)) (da ta : List (String × Int)) (idx : Nat) :
    allocWalk devs ((nm, tr) :: rest) da idx ta =
      allocWalk devs rest
        (dictSet da (devs.getD idx "")
          (((dictGet? da (devs.getD idx "")).getD 0) + align64 tr.size_bytes))
        ((idx + 1) % devs.length)
        (dictSet ta nm ((dictGet? da (devs.getD idx "")).getD 0)) := rfl

theorem allocTrace_nil (devs : List String) (da : List (String × Int)) (idx : Nat) :
    allocTrace devs [] da idx = [] := rfl

theorem allocTrace_cons (devs : List String) (nm : String) (tr : TensorRec)
    (rest : List (String × TensorRec)) (da : List (String × Int)) (idx : Nat) :
    allocTrace devs ((nm, tr) :: rest) da idx =
      ⟨nm, devs.getD idx "", (dictGet? da (devs.getD idx "")).getD 0, tr.size_bytes⟩ ::
        allocTrace devs rest
          (dictSet da (devs.getD idx "")
            (((dictGet? da (devs.getD idx "")).getD 0) + align64 tr.size_bytes))
          ((idx + 1) % devs.length) := rfl

theorem allocWalk_eq_trace (devs : List String) :
    ∀ (items : List (String × TensorRec)) (da : List (String × Int)) (idx : Nat)
    (ta : List (String × Int)),
    (∀ p ∈ items, (dictGet? ta p.1).isSome = false) →
    (items.map Prod.fst).Nodup →
    allocWalk devs items da idx ta =
      ta ++ (allocTrace devs items da idx).map (fun e => (e.tensor, e.addr)) := by
  intro items
  induction items with
  | nil =>
    intro da idx ta _ _
    simp [allocWalk_nil, allocTrace_nil]
  | cons p rest ih =>
    rcases p with ⟨nm, tr⟩
    intro da idx ta hfresh hnodup
    rw [List.map_cons, List.nodup_cons] at hnodup
    have hfr : (dictGet? ta nm).isSome = false :=
      hfresh (nm, tr) (List.mem_cons_self _ _)
    rw [allocWalk_cons, allocTrace_cons]
    rw [dictSet_append_of_fresh hfr]
    rw [ih _ _ _ ?_ hnodup.2]
    · rw [List.map_cons, List.append_assoc]
      rfl
    · intro q hq
      rw [dictGet?_append]
      have h1 : (dictGet? ta q.1).isSome = false :=
        hfresh q (List.mem_cons_of_mem _ hq)
      have h2 : q.1 ≠ nm := by
        intro e
        apply hnodup.1
        rw [← e]
        exact List.mem_map.mpr ⟨q, hq, rfl⟩
      cases hget : dictGet? ta q.1 with
      | some a =>
        rw [hget] at h1
        cases h1
      | none =>
        show (dictGet? [(nm, (dictGet? da (devs.getD idx "")).getD 0)] q.1).isSome = false
        rw [dictGet?, if_neg (fun e => h2 e.symm)]
        rfl

theorem allocTrace_tensors (devs : List String) :
    ∀ (items : List (String × TensorRec)) (da : List (String × Int)) (idx : Nat),
    (allocTrace devs items da idx).map AllocEvent.tensor = items.map Prod.fst := by
  intro items
  induction items with
  | nil => intro da idx; rfl
  | cons p rest ih =>
    rcases p with ⟨nm, tr⟩
    intro da idx
    rw [allocTrace_cons, List.map_cons, List.map_cons, ih]

theorem allocTrace_sizes (devs : List String) :
    ∀ (items : List (String × TensorRec)) (da : List (String × Int)) (idx : Nat),
    (allocTrace devs items da idx).map AllocEvent.size =
      items.map (fun p => p.2.size_bytes) := by
  intro items
  induction items with
  | nil => intro da idx; rfl
  | cons p rest ih =>
    rcases p with ⟨nm, tr⟩
    intro da idx
    rw [allocTrace_cons, List.map_cons, List.map_cons, ih]

theorem allocTrace_length (devs : List String) :
    ∀ (items : List (String × TensorRec)) (da : List (String × Int)) (idx : Nat),
    (allocTrace devs items da idx).length = items.length := by
  intro items
  induction items with
  | nil => intro da idx; rfl
  | cons p rest ih =>
    rcases p with ⟨nm, tr⟩
    intro da idx
    rw [allocTrace_cons, List.length_cons, List.length_cons, ih]

theorem allocTrace_devices (devs : List String) :
    ∀ (items : List (String × TensorRec)) (da : List (String × Int)) (idx : Nat),
    idx < devs.length →
    ∀ k (hk : k < (allocTrace devs items da idx).length),
    ((allocTrace devs items da idx).get ⟨k, hk⟩).device =
      devs.getD ((idx + k) % devs.length) "" := by
  intro items
  induction items with
  | nil =>
    intro da idx _ k hk
    rw [allocTrace_nil] at hk
    cases hk
  | cons p rest ih =>
    rcases p with ⟨nm, tr⟩
    intro da idx hidx k
    rw [allocTrace_cons]
    intro hk
    cases k with
    | zero =>
      show devs.getD idx "" = devs.getD ((idx + 0) % devs.length) ""
      rw [Nat.add_zero, Nat.mod_eq_of_lt hidx]
    | succ k2 =>
      have hlen : 0 < devs.length := lt_of_le_of_lt (Nat.zero_le idx) hidx
      rw [List.length_cons] at hk
      have hk2 : k2 < (allocTrace devs rest
          (dictSet da (devs.getD idx "")
            (((dictGet? da (devs.getD idx "")).getD 0) + align64 tr.size_bytes))
          ((idx + 1) % devs.length)).length := by omega
      have hres := ih _ ((idx + 1) % devs.length) (Nat.mod_lt _ hlen) k2 hk2
      show ((allocTrace devs rest _ _).get ⟨k2, hk2⟩).device = _
      rw [hres, Nat.mod_add_mod]
      congr 2
      omega

theorem allocTrace_chained (devs : List String) (d : String) :
    ∀ (items : List (String × TensorRec)) (da : List (String × Int)) (idx : Nat),
    ChainedFrom ((dictGet? da d).getD 0)
      ((allocTrace devs items da idx).filter (fun e => decide (e.device = d))) := by
  intro items
  induction items with
  | nil => intro da idx; exact trivial
  | cons p rest ih =>
    rcases p with ⟨nm, tr⟩
    intro da idx
    rw [allocTrace_cons, List.filter_cons]
    by_cases hdev : devs.getD idx "" = d
    · subst hdev
      rw [if_pos (by simp)]
      refine ⟨rfl, ?_⟩
      have hrec := ih (dictSet da (devs.getD idx "")
        (((dictGet? da (devs.getD idx "")).getD 0) + align64 tr.size_bytes))
        ((idx + 1) % devs.length)
      rw [dictGet?_set, if_pos rfl] at hrec
      exact hrec
    · rw [if_neg (by simpa using hdev)]
      have hrec := ih (dictSet da (devs.getD idx "")
        (((dictGet? da (devs.getD idx "")).getD 0) + align64 tr.size_bytes))
        ((idx + 1) % devs.length)
      rw [dictGet?_set, if_neg (fun e => hdev e.symm)] at hrec
      exact hrec

theorem chainedFrom_chain' :
    ∀ {start : Int} {evs : List AllocEvent}, ChainedFrom start evs →
    List.Chain' (fun e1 e2 => e2.addr = e1.addr + align64 e1.size) evs := by
  intro start evs
  induction evs generalizing start with
  | nil => intro _; exact List.chain'_nil
  | cons e rest ih =>
    intro h
    obtain ⟨he, hrest⟩ := h
    cases rest with
    | nil => exact List.chain'_singleton e
    | cons e2 t =>
      rw [List.chain'_cons]
      have he2 : e2.addr = start + align64 e.size := hrest.1
      exact ⟨by rw [he2, he], ih hrest⟩

theorem chainedFrom_lb :
    ∀ {start : Int} {evs : List AllocEvent}, ChainedFrom start evs →
    (∀ e ∈ evs, 0 ≤ e.size) → ∀ b ∈ evs, start ≤ b.addr := by
  intro start evs
  induction evs generalizing start with
  | nil => intro _ _ b hb; cases hb
  | cons e rest ih =>
    intro h hsz b hb
    obtain ⟨he, hrest⟩ := h
    rcases List.mem_cons.mp hb with rfl | hb2
    · exact le_of_eq he.symm
    · have h1 : 0 ≤ e.size := hsz e (List.mem_cons_self _ _)
      have h2 : start ≤ start + align64 e.size := by
        have := align64_ge e.size
        omega
      exact le_trans h2 (ih hrest (fun x hx => hsz x (List.mem_cons_of_mem _ hx)) b hb2)

theorem chainedFrom_pairwise :
    ∀ {start : Int} {evs : List AllocEvent}, ChainedFrom start evs →
    (∀ e ∈ evs, 0 ≤ e.size) →
    evs.Pairwise (fun e1 e2 => e1.addr + e1.size ≤ e2.addr) := by
  intro start evs
  induction evs generalizing start with
  | nil => intro _ _; exact List.Pairwise.nil
  | cons e rest ih =>
    intro h hsz
    obtain ⟨he, hrest⟩ := h
    rw [List.pairwise_cons]
    refine ⟨?_, ih hrest (fun x hx => hsz x (List.mem_cons_of_mem _ hx))⟩
    intro b hb
    have hlb := chainedFrom_lb hrest (fun x hx => hsz x (List.mem_cons_of_mem _ hx)) b hb
    have hge := align64_ge e.size
    omega

theorem allocWalk_covers (devs : List String) :
    ∀ {items : List (String × TensorRec)} {da : List (String × Int)} {idx : Nat}
    {ta : List (String × Int)} {name : String},
    (name ∈ items.map Prod.fst ∨ (dictGet? ta name).isSome = true) →
    (dictGet? (allocWalk devs items da idx ta) name).isSome = true := by
  intro items
  induction items with
  | nil =>
    intro da idx ta name h
    rcases h with h | h
    · cases h
    · exact h
  | cons p rest ih =>
    rcases p with ⟨nm, tr⟩
    intro da idx ta name h
    rw [allocWalk_cons]
    refine ih ?_
    rcases h with h | h
    · rw [List.map_cons, List.mem_cons] at h
      by_cases e : name = nm
      · subst e
        right
        rw [dictGet?_set, if_pos rfl]
        rfl
      · left
        tauto
    · right
      exact dictGet?_set_isSome _ _ h

theorem layout_ok_elim {tensors : List (String × TensorRec)} {pc : PlatformConfig}
    {res : List (String × Int)}
    (hres : _layout_tensors tensors pc = Except.ok res) :
    ∃ mm mms, pc.memory_maps = mm :: mms ∧ mm.ranges ≠ [] ∧
      res = allocWalk ((deviceAddressesOf mm.ranges).map Prod.fst)
        (sortDescBySize tensors) (deviceAddressesOf mm.ranges) 0 [] := by
  unfold _layout_tensors at hres
  cases hmm : pc.memory_maps with
  | nil =>
    rw [hmm] at hres
    simp only [] at hres
    cases hres
  | cons mm mms =>
    refine ⟨mm, mms, rfl, ?_⟩
    rw [hmm] at hres
    by_cases hr : mm.ranges = []
    · simp only [if_pos hr] at hres
      cases hres
    · refine ⟨hr, ?_⟩
      simp only [if_neg hr] at hres
      by_cases hd : (deviceAddressesOf mm.ranges).map Prod.fst = []
      · simp only [if_pos hd] at hres
        cases hres
      · simp only [if_neg hd] at hres
        injection hres with hres
        exact hres.symm

theorem layout_covers {tensors : List (String × TensorRec)} {pc : PlatformConfig}
    {res : List (String × Int)} {name : String}
    (hres : _layout_tensors tensors pc = Except.ok res)
    (hname : (dictGet? tensors name).isSome = true) :
    (dictGet? res name).isSome = true := by
  obtain ⟨mm, mms, _, _, hr⟩ := layout_ok_elim hres
  subst hr
  apply allocWalk_covers
  left
  have hperm := (sortDescBySize_perm tensors).map Prod.fst
  rw [hperm.mem_iff]
  rw [← dictGet?_isSome_iff]
  exact hname

/-! ### Chunking lemmas -/

theorem split_num_chunks_char {S C : Int} (hS : 1 ≤ S) (hC : 1 ≤ C) :
    1 ≤ (S + C - 1).fdiv C ∧ C * ((S + C - 1).fdiv C - 1) < S ∧
      S ≤ C * ((S + C - 1).fdiv C) := by
  rw [Int.fdiv_eq_ediv _ (by omega)]
  have h1 := Int.ediv_add_emod (S + C - 1) C
  have h2 : 0 ≤ (S + C - 1) % C := Int.emod_nonneg _ (by omega)
  have h3 : (S + C - 1) % C < C := Int.emod_lt_of_pos _ (by omega)
  set q := (S + C - 1) / C with hq
  have hcq : C * q = S + C - 1 - (S + C - 1) % C := by omega
  have hq1 : 1 ≤ q := by
    by_contra hcon
    push_neg at hcon
    have hq0 : q ≤ 0 := by omega
    have : C * q ≤ 0 := mul_nonpos_iff.mpr (Or.inl ⟨by omega, hq0⟩)
    omega
  refine ⟨hq1, ?_, ?_⟩
  · have he : C * (q - 1) = C * q - C := by ring
    omega
  · omega

theorem chunk_sum {S C : Int} (hC : 1 ≤ C) (N : Nat) (hN : 1 ≤ N)
    (hNl : C * ((N : Int) - 1) < S) (hNu : S ≤ C * N) :
    ((List.range N).map (fun (i : Nat) => min C (S - (i : Int) * C))).sum = S := by
  obtain ⟨M, rfl⟩ : ∃ M, N = M + 1 := ⟨N - 1, by omega⟩
  rw [List.range_succ, List.map_append, List.sum_append]
  have hM : ((M : Int) + 1 - 1) = (M : Int) := by ring
  have hNl2 : C * (M : Int) < S := by
    have : ((M + 1 : Nat) : Int) - 1 = (M : Int) := by push_cast; ring
    rwa [this] at hNl
  have hNu2 : S ≤ C * ((M : Int) + 1) := by
    have : ((M + 1 : Nat) : Int) = (M : Int) + 1 := by push_cast; ring
    rwa [this] at hNu
  have hterm : ∀ i ∈ List.range M, (fun i : Nat => min C (S - (i : Int) * C)) i = C := by
    intro i hi
    rw [List.mem_range] at hi
    apply min_eq_left
    have h1 : ((i : Int) + 1) ≤ (M : Int) := by exact_mod_cast hi
    nlinarith
  rw [List.map_congr_left hterm]
  have hconst : (List.range M).map (fun _ : Nat => C) = List.replicate M C := by
    rw [List.eq_replicate_iff]
    constructor
    · rw [List.length_map, List.length_range]
    · intro b hb
      rw [List.mem_map] at hb
      obtain ⟨a, _, hab⟩ := hb
      exact hab.symm
  rw [hconst, List.sum_replicate, List.map_singleton, List.sum_singleton]
  have hlast : min C (S - (M : Int) * C) = S - (M : Int) * C := by
    apply min_eq_right
    nlinarith
  rw [hlast, nsmul_eq_mul]
  ring

theorem split_memory_op_ok {base_id op_type pe_name : String} {base_addr S C : Int}
    (hC : C ≠ 0) :
    _split_memory_op base_id op_type pe_name base_addr S C =
      Except.ok ((List.range ((S + C - 1).fdiv C).toNat).map (fun (chunk_index : Nat) =>
        TNode.memory
          (if (S + C - 1).fdiv C = 1 then base_id
            else base_id ++ "_chunk_" ++ natStr chunk_index)
          op_type pe_name (base_addr + (chunk_index : Int) * C)
          (min C (S - (chunk_index : Int) * C)))) := by
  unfold _split_memory_op
  rw [if_neg hC]

/-! ### Builder lemmas: SRAM resolution and memory-op emission -/

theorem getPeSramLoop_ne_zero {pes : List ProcessingElement} {nm : String}
    (h : ∀ pe ∈ pes, pe.config.sram_bytes ≠ some 0) : getPeSramLoop pes nm ≠ 0 := by
  induction pes with
  | nil =>
    show DEFAULT_SRAM_BYTES ≠ 0
    unfold DEFAULT_SRAM_BYTES
    norm_num
  | cons pe rest ih =>
    show (if pe.name = nm then
        match pe.config.sram_bytes with
        | some sram_bytes => sram_bytes
        | none => getPeSramLoop rest nm
      else getPeSramLoop rest nm) ≠ 0
    split
    · cases hcfg : pe.config.sram_bytes with
      | some s =>
        simp only [hcfg]
        intro e
        exact h pe (List.mem_cons_self _ _) (by rw [hcfg, e])
      | none =>
        simp only [hcfg]
        exact ih (fun q hq => h q (List.mem_cons_of_mem _ hq))
    · exact ih (fun q hq => h q (List.mem_cons_of_mem _ hq))

theorem buildMemOps_nil (tensors : List (String × TensorRec)) (TA : List (String × Int))
    (node_name op_word pe_name : String) (sram : Int) (i0 : Nat) :
    buildMemOps tensors TA node_name op_word pe_name sram [] i0 = .ok [] := rfl

theorem buildMemOps_cons (tensors : List (String × TensorRec)) (TA : List (String × Int))
    (node_name op_word pe_name : String) (sram : Int) (nm : String) (rest : List String)
    (i0 : Nat) :
    buildMemOps tensors TA node_name op_word pe_name sram (nm :: rest) i0 =
      if nm = "" then buildMemOps tensors TA node_name op_word pe_name sram rest (i0 + 1)
      else
        match dictGet? TA nm with
        | none => .error ("KeyError: '" ++ nm ++ "'")
        | some addr =>
          match dictGet? tensors nm with
          | none => .error ("KeyError: '" ++ nm ++ "'")
          | some tr =>
            match _split_memory_op (node_name ++ "_" ++ op_word ++ "_" ++ natStr i0)
              op_word pe_name addr tr.size_bytes sram with
            | .error e => .error e
            | .ok ops =>
              match buildMemOps tensors TA node_name op_word pe_name sram rest (i0 + 1) with
              | .error e => .error e
              | .ok restOps => .ok (ops ++ restOps) := rfl

theorem buildMemOps_cons_elim {tensors : List (String × TensorRec)}
    {TA : List (String × Int)} {node_name op_word pe_name : String} {sram : Int}
    {nm : String} {rest : List String} {i0 : Nat} {ops : List TNode}
    (h : buildMemOps tensors TA node_name op_word pe_name sram (nm :: rest) i0 = .ok ops)
    (hne : nm ≠ "") :
    ∃ addr tr g restOps,
      dictGet? TA nm = some addr ∧ dictGet? tensors nm = some tr ∧
      _split_memory_op (node_name ++ "_" ++ op_word ++ "_" ++ natStr i0) op_word pe_name
        addr tr.size_bytes sram = .ok g ∧
      buildMemOps tensors TA node_name op_word pe_name sram rest (i0 + 1) = .ok restOps ∧
      ops = g ++ restOps := by
  rw [buildMemOps_cons, if_neg hne] at h
  cases ha : dictGet? TA nm with
  | none => simp only [ha] at h; cases h
  | some addr =>
    simp only [ha] at h
    cases ht : dictGet? tensors nm with
    | none => simp only [ht] at h; cases h
    | some tr =>
      simp only [ht] at h
      cases hsp : _split_memory_op (node_name ++ "_" ++ op_word ++ "_" ++ natStr i0)
          op_word pe_name addr tr.size_bytes sram with
      | error e => simp only [hsp] at h; cases h
      | ok g =>
        simp only [hsp] at h
        cases hrest : buildMemOps tensors TA node_name op_word pe_name sram rest (i0 + 1) with
        | error e => simp only [hrest] at h; cases h
        | ok restOps =>
          simp only [hrest] at h
          injection h with h
          exact ⟨addr, tr, g, restOps, rfl, rfl, hsp, rfl, h.symm⟩

theorem split_memory_op_ids {base_id op_type pe_name : String} {base_addr S C : Int}
    {ops : List TNode}
    (h : _split_memory_op base_id op_type pe_name base_addr S C = .ok ops) :
    ops.map TNode.id = chunkIdList base_id ((S + C - 1).fdiv C).toNat := by
  by_cases hC : C = 0
  · unfold _split_memory_op at h
    rw [if_pos hC] at h
    cases h
  · rw [split_memory_op_ok hC] at h
    injection h with h
    subst h
    rw [List.map_map]
    by_cases hq : (S + C - 1).fdiv C = 1
    · simp only [hq]
      rfl
    · have hq2 : ((S + C - 1).fdiv C).toNat ≠ 1 := by
        generalize (S + C - 1).fdiv C = q at hq ⊢
        omega
      unfold chunkIdList
      rw [if_neg hq2]
      refine List.map_congr_left ?_
      intro j _
      simp only [Function.comp]
      rw [if_neg hq]
      rfl

theorem split_memory_op_memory {base_id op_type pe_name : String} {base_addr S C : Int}
    {ops : List TNode}
    (h : _split_memory_op base_id op_type pe_name base_addr S C = .ok ops) :
    ∀ op ∈ ops, op.isCompute = false := by
  by_cases hC : C = 0
  · unfold _split_memory_op at h
    rw [if_pos hC] at h
    cases h
  · rw [split_memory_op_ok hC] at h
    injection h with h
    subst h
    intro op hop
    rw [List.mem_map] at hop
    obtain ⟨j, _, hj⟩ := hop
    rw [← hj]
    rfl

theorem split_memory_op_length {base_id op_type pe_name : String} {base_addr S C : Int}
    {ops : List TNode}
    (h : _split_memory_op base_id op_type pe_name base_addr S C = .ok ops) :
    ops.length = ((S + C - 1).fdiv C).toNat := by
  by_cases hC : C = 0
  · unfold _split_memory_op at h
    rw [if_pos hC] at h
    cases h
  · rw [split_memory_op_ok hC] at h
    injection h with h
    subst h
    rw [List.length_map, List.length_range]

theorem load_base_id_eq (name : String) (i : Nat) :
    name ++ "_" ++ "load" ++ "_" ++ natStr i = name ++ ("_load_" ++ natStr i) := by
  apply String.ext
  simp [String.data_append]

theorem store_base_id_eq (name : String) (i : Nat) :
    name ++ "_" ++ "store" ++ "_" ++ natStr i = name ++ ("_store_" ++ natStr i) := by
  apply String.ext
  simp [String.data_append]

theorem buildMemOps_shape {tensors : List (String × TensorRec)} {TA : List (String × Int)}
    {node_name op_word pe_name kw : String} {sram : Int}
    (hkw : (op_word = "load" ∧ kw = "_load_") ∨ (op_word = "store" ∧ kw = "_store_")) :
    ∀ {names : List String} {i0 : Nat} {ops : List TNode},
    buildMemOps tensors TA node_name op_word pe_name sram names i0 = .ok ops →
    (ops.map TNode.id).Nodup ∧
    ∀ op ∈ ops, op.isCompute = false ∧ ∃ i, i0 ≤ i ∧ i - i0 < names.length ∧
      names.getD (i - i0) "" ≠ "" ∧ memIdShape node_name kw i op.id := by
  intro names
  induction names with
  | nil =>
    intro i0 ops h
    rw [buildMemOps_nil] at h
    injection h with h
    subst h
    exact ⟨List.nodup_nil, by intro op hop; cases hop⟩
  | cons nm rest ih =>
    intro i0 ops h
    by_cases hne : nm = ""
    · rw [buildMemOps_cons, if_pos hne] at h
      obtain ⟨hnd, hall⟩ := ih h
      refine ⟨hnd, ?_⟩
      intro op hop
      obtain ⟨hmem, i, hi1, hi2, hi3, hi4⟩ := hall op hop
      refine ⟨hmem, i, by omega, by rw [List.length_cons]; omega, ?_, hi4⟩
      have he : i - i0 = (i - (i0 + 1)) + 1 := by omega
      rw [he, List.getD_cons_succ]
      exact hi3
    · obtain ⟨addr, tr, g, restOps, ha, ht, hsp, hrest, hops⟩ := buildMemOps_cons_elim h hne
      subst hops
      have hbase : node_name ++ "_" ++ op_word ++ "_" ++ natStr i0 =
          node_name ++ (kw ++ natStr i0) := by
        rcases hkw with ⟨h1, h2⟩ | ⟨h1, h2⟩ <;> subst h1 <;> subst h2
        · exact load_base_id_eq node_name i0
        · exact store_base_id_eq node_name i0
      have hids := split_memory_op_ids hsp
      rw [hbase] at hids
      have hgshape : ∀ op ∈ g, memIdShape node_name kw i0 op.id := by
        intro op hop
        exact chunkIdList_memIdShape _ (hids ▸ List.mem_map_of_mem TNode.id hop)
      obtain ⟨hndrest, hallrest⟩ := ih hrest
      constructor
      · rw [List.map_append]
        refine List.Nodup.append ?_ hndrest ?_
        · rw [hids]
          exact chunkIdList_nodup _ _
        · intro a hag har
          rw [List.mem_map] at hag har
          obtain ⟨op1, hop1, ha1⟩ := hag
          obtain ⟨op2, hop2, ha2⟩ := har
          obtain ⟨_, i, hi1, _, _, hi4⟩ := hallrest op2 hop2
          exact memIdShape_ne (hgshape op1 hop1) hi4 (by omega) (ha1.trans ha2.symm)
      · intro op hop
        rcases List.mem_append.mp hop with hop | hop
        · refine ⟨split_memory_op_memory hsp op hop, i0, le_rfl, ?_, ?_,
            hgshape op hop⟩
          · rw [List.length_cons]
            omega
          · rw [Nat.sub_self, List.getD_cons_zero]
            exact hne
        · obtain ⟨hmem, i, hi1, hi2, hi3, hi4⟩ := hallrest op hop
          refine ⟨hmem, i, by omega, by rw [List.length_cons]; omega, ?_, hi4⟩
          have he : i - i0 = (i - (i0 + 1)) + 1 := by omega
          rw [he, List.getD_cons_succ]
          exact hi3

theorem buildMemOps_slot {tensors : List (String × TensorRec)} {TA : List (String × Int)}
    {node_name op_word pe_name kw : String} {sram : Int}
    (hkw : (op_word = "load" ∧ kw = "_load_") ∨ (op_word = "store" ∧ kw = "_store_"))
    (hsram : 1 ≤ sram) (hgood : ∀ p ∈ tensors, goodRec p.2) :
    ∀ {names : List String} {i0 : Nat} {ops : List TNode},
    buildMemOps tensors TA node_name op_word pe_name sram names i0 = .ok ops →
    ∀ k, k < names.length → names.getD k "" ≠ "" →
    ∃ op ∈ ops, memIdShape node_name kw (i0 + k) op.id := by
  intro names
  induction names with
  | nil =>
    intro i0 ops h k hk
    rw [List.length_nil] at hk
    omega
  | cons nm rest ih =>
    intro i0 ops h k hk hkne
    cases k with
    | zero =>
      rw [List.getD_cons_zero] at hkne
      obtain ⟨addr, tr, g, restOps, ha, ht, hsp, hrest, hops⟩ := buildMemOps_cons_elim h hkne
      subst hops
      have hsz : 1 ≤ tr.size_bytes := (hgood _ (dictGet?_mem ht)).1
      have hchar := split_num_chunks_char hsz hsram
      have hlen := split_memory_op_length hsp
      have hq1 := hchar.1
      have hglen : 0 < g.length := by
        rw [hlen]
        omega
      obtain ⟨op, hop⟩ := List.exists_mem_of_ne_nil _ (List.length_pos.mp hglen)
      have hbase : node_name ++ "_" ++ op_word ++ "_" ++ natStr i0 =
          node_name ++ (kw ++ natStr i0) := by
        rcases hkw with ⟨h1, h2⟩ | ⟨h1, h2⟩ <;> subst h1 <;> subst h2
        · exact load_base_id_eq node_name i0
        · exact store_base_id_eq node_name i0
      have hids := split_memory_op_ids hsp
      rw [hbase] at hids
      refine ⟨op, List.mem_append_left _ hop, ?_⟩
      rw [Nat.add_zero]
      exact chunkIdList_memIdShape _ (hids ▸ List.mem_map_of_mem TNode.id hop)
    | succ k2 =>
      rw [List.length_cons] at hk
      rw [List.getD_cons_succ] at hkne
      by_cases hne : nm = ""
      · rw [buildMemOps_cons, if_pos hne] at h
        obtain ⟨op, hop, hshape⟩ := ih h k2 (by omega) hkne
        refine ⟨op, hop, ?_⟩
        rwa [show i0 + 1 + k2 = i0 + (k2 + 1) by omega] at hshape
      · obtain ⟨addr, tr, g, restOps, ha, ht, hsp, hrest, hops⟩ := buildMemOps_cons_elim h hne
        subst hops
        obtain ⟨op, hop, hshape⟩ := ih hrest k2 (by omega) hkne
        refine ⟨op, List.mem_append_right _ hop, ?_⟩
        rwa [show i0 + 1 + k2 = i0 + (k2 + 1) by omega] at hshape

theorem buildMemOps_ok_intro {tensors : List (String × TensorRec)} {TA : List (String × Int)}
    {node_name op_word pe_name : String} {sram : Int} (hsram : sram ≠ 0) :
    ∀ {names : List String} (i0 : Nat),
    (∀ nm ∈ names, nm ≠ "" →
      (dictGet? TA nm).isSome = true ∧ (dictGet? tensors nm).isSome = true) →
    ∃ ops, buildMemOps tensors TA node_name op_word pe_name sram names i0 = .ok ops := by
  intro names
  induction names with
  | nil =>
    intro i0 _
    exact ⟨[], rfl⟩
  | cons nm rest ih =>
    intro i0 hcov
    by_cases hne : nm = ""
    · rw [buildMemOps_cons, if_pos hne]
      exact ih (i0 + 1) (fun q hq hq2 => hcov q (List.mem_cons_of_mem _ hq) hq2)
    · obtain ⟨h1, h2⟩ := hcov nm (List.mem_cons_self _ _) hne
      obtain ⟨addr, ha⟩ := Option.isSome_iff_exists.mp h1
      obtain ⟨tr, ht⟩ := Option.isSome_iff_exists.mp h2
      obtain ⟨restOps, hrest⟩ :=
        ih (i0 + 1) (fun q hq hq2 => hcov q (List.mem_cons_of_mem _ hq) hq2)
      rw [buildMemOps_cons, if_neg hne]
      simp only [ha, ht, split_memory_op_ok hsram, hrest]
      exact ⟨_, rfl⟩

/-! ### Builder lemmas: the compute record -/

theorem computeFold_nil (tensors : List (String × TensorRec)) (m : Int) (d : String) :
    computeFold tensors [] m d = .ok (m, d) := rfl

theorem computeFold_cons (tensors : List (String × TensorRec)) (o : String)
    (rest : List String) (m : Int) (d : String) :
    computeFold tensors (o :: rest) m d =
      if o = "" then computeFold tensors rest m d
      else
        match _calculate_num_ops tensors o with
        | .error e => .error e
        | .ok num_ops =>
          computeFold tensors rest (max m num_ops)
            (match dictGet? tensors o with
             | some tr => _dtype_to_string tr.dtype
             | none => d) := rfl

theorem calculate_num_ops_ok_elim {tensors : List (String × TensorRec)} {name : String}
    {k : Int} (h : _calculate_num_ops tensors name = .ok k) :
    ∃ tr shape, dictGet? tensors name = some tr ∧ tr.shape = some shape ∧
      k = max 1 (_get_tensor_num_elements shape) := by
  unfold _calculate_num_ops at h
  cases hg : dictGet? tensors name with
  | none => simp only [hg] at h; cases h
  | some tr =>
    simp only [hg] at h
    cases hs : tr.shape with
    | none => simp only [hs] at h; cases h
    | some shape =>
      simp only [hs] at h
      injection h with h
      exact ⟨tr, shape, rfl, hs, h.symm⟩

theorem calc_eq_resolvedElemCount {tensors : List (String × TensorRec)} {name : String}
    {k : Int} (h : _calculate_num_ops tensors name = .ok k) :
    k = resolvedElemCount tensors name ∧ 1 ≤ k ∧
      (dictGet? tensors name).isSome = true := by
  obtain ⟨tr, shape, h1, h2, h3⟩ := calculate_num_ops_ok_elim h
  have hone := one_le_num_elements shape
  refine ⟨?_, ?_, ?_⟩
  · simp only [resolvedElemCount, h1, h2]
    rw [h3]
    exact max_eq_right hone
  · rw [h3]
    exact le_max_left 1 _
  · rw [h1]
    rfl

theorem computeFold_num_ops {tensors : List (String × TensorRec)} :
    ∀ {outs : List String} {m : Int} {d : String} {res : Int × String},
    computeFold tensors outs m d = .ok res → 1 ≤ m →
    res.1 = max m (((outs.filter (fun s => decide (s ≠ ""))).map
      (resolvedElemCount tensors)).foldr max 1) := by
  intro outs
  induction outs with
  | nil =>
    intro m d res h hm
    rw [computeFold_nil] at h
    injection h with h
    subst h
    show m = max m _
    rw [List.filter_nil, List.map_nil, List.foldr_nil]
    exact (max_eq_left hm).symm
  | cons o rest ih =>
    intro m d res h hm
    rw [computeFold_cons] at h
    by_cases hne : o = ""
    · rw [if_pos hne] at h
      rw [List.filter_cons, if_neg (by simp [hne])]
      exact ih h hm
    · rw [if_neg hne] at h
      cases hc : _calculate_num_ops tensors o with
      | error e => simp only [hc] at h; cases h
      | ok k =>
        simp only [hc] at h
        obtain ⟨hk1, hk2, _⟩ := calc_eq_resolvedElemCount hc
        have hrec := ih h (le_trans hm (le_max_left m k))
        rw [List.filter_cons, if_pos (by simp [hne]), List.map_cons, List.foldr_cons]
        rw [hrec, ← hk1]
        exact max_assoc m k _

theorem computeFold_dtype {tensors : List (String × TensorRec)} :
    ∀ {outs : List String} {m : Int} {d : String} {res : Int × String},
    computeFold tensors outs m d = .ok res →
    res.2 = (match (outs.filter (fun s => decide (s ≠ ""))).getLast? with
      | none => d
      | some o => resolvedDtypeStr tensors o) := by
  intro outs
  induction outs with
  | nil =>
    intro m d res h
    rw [computeFold_nil] at h
    injection h with h
    subst h
    rfl
  | cons o rest ih =>
    intro m d res h
    rw [computeFold_cons] at h
    by_cases hne : o = ""
    · rw [if_pos hne] at h
      rw [List.filter_cons, if_neg (by simp [hne])]
      exact ih h
    · rw [if_neg hne] at h
      cases hc : _calculate_num_ops tensors o with
      | error e => simp only [hc] at h; cases h
      | ok k =>
        simp only [hc] at h
        obtain ⟨_, _, hsome⟩ := calc_eq_resolvedElemCount hc
        obtain ⟨tr, htr⟩ := Option.isSome_iff_exists.mp hsome
        have hd2 : (match dictGet? tensors o with
            | some tr => _dtype_to_string tr.dtype
            | none => d) = resolvedDtypeStr tensors o := by
          simp only [resolvedDtypeStr, htr]
        rw [hd2] at h
        have hrec := ih h
        rw [List.filter_cons, if_pos (by simp [hne])]
        cases hfr : rest.filter (fun s => decide (s ≠ "")) with
        | nil =>
          rw [hfr] at hrec
          simpa using hrec
        | cons x xs =>
          rw [hfr] at hrec
          rw [List.getLast?_cons_cons]
          exact hrec

theorem computeFold_ok_intro {tensors : List (String × TensorRec)} :
    ∀ {outs : List String} (m : Int) (d : String),
    (∀ o ∈ outs, o ≠ "" → ∃ tr, dictGet? tensors o = some tr ∧ tr.shape.isSome = true) →
    ∃ res, computeFold tensors outs m d = .ok res := by
  intro outs
  induction outs with
  | nil =>
    intro m d _
    exact ⟨_, rfl⟩
  | cons o rest ih =>
    intro m d hcov
    rw [computeFold_cons]
    by_cases hne : o = ""
    · rw [if_pos hne]
      exact ih m d (fun q hq h2 => hcov q (List.mem_cons_of_mem _ hq) h2)
    · rw [if_neg hne]
      obtain ⟨tr, htr, hshape⟩ := hcov o (List.mem_cons_self _ _) hne
      obtain ⟨shape, hshape2⟩ := Option.isSome_iff_exists.mp hshape
      have hcalc : _calculate_num_ops tensors o =
          .ok (max 1 (_get_tensor_num_elements shape)) := by
        unfold _calculate_num_ops
        simp only [htr, hshape2]
      simp only [hcalc]
      exact ih _ _ (fun q hq h2 => hcov q (List.mem_cons_of_mem _ hq) h2)

/-! ### Builder lemmas: per-node lowering and the main loop -/

theorem lowerNode_ok_elim {tensors : List (String × TensorRec)} {TA : List (String × Int)}
    {pc : PlatformConfig} {pe_names : List String} {onnx_node : NodeProto}
    {idx cur : Nat} {loads : List TNode} {comp : TNode} {stores : List TNode}
    (h : lowerNode tensors TA pc pe_names onnx_node idx cur = .ok (loads, comp, stores)) :
    onnx_node.name ≠ "" ∧
    buildMemOps tensors TA onnx_node.name "load" (pe_names.getD cur "")
      (_get_pe_sram_bytes pc (pe_names.getD cur "")) onnx_node.input 0 = .ok loads ∧
    (∃ res, computeFold tensors onnx_node.output 1 "fp32" = .ok res ∧
      comp = TNode.compute (onnx_node.name ++ "_compute")
        (_map_onnx_op_to_gwr_op onnx_node.op_type) (pe_names.getD cur "") res.2 res.1) ∧
    buildMemOps tensors TA onnx_node.name "store" (pe_names.getD cur "")
      (_get_pe_sram_bytes pc (pe_names.getD cur "")) onnx_node.output 0 = .ok stores := by
  unfold lowerNode at h
  by_cases hname : onnx_node.name = ""
  · rw [if_pos hname] at h
    cases h
  · rw [if_neg hname] at h
    have h' : (match buildMemOps tensors TA onnx_node.name "load" (pe_names.getD cur "")
        (_get_pe_sram_bytes pc (pe_names.getD cur "")) onnx_node.input 0 with
      | .error e => (Except.error e : Except String (List TNode × TNode × List TNode))
      | .ok loads2 =>
        match computeFold tensors onnx_node.output 1 "fp32" with
        | .error e => .error e
        | .ok res =>
          match buildMemOps tensors TA onnx_node.name "store" (pe_names.getD cur "")
            (_get_pe_sram_bytes pc (pe_names.getD cur "")) onnx_node.output 0 with
          | .error e => .error e
          | .ok stores2 => .ok (loads2, TNode.compute (onnx_node.name ++ "_compute")
              (_map_onnx_op_to_gwr_op onnx_node.op_type) (pe_names.getD cur "") res.2 res.1,
              stores2)) = Except.ok (loads, comp, stores) := h
    clear h
    cases hl : buildMemOps tensors TA onnx_node.name "load" (pe_names.getD cur "")
        (_get_pe_sram_bytes pc (pe_names.getD cur "")) onnx_node.input 0 with
    | error e => simp only [hl] at h'; cases h'
    | ok loads2 =>
      simp only [hl] at h'
      cases hcf : computeFold tensors onnx_node.output 1 "fp32" with
      | error e => simp only [hcf] at h'; cases h'
      | ok res =>
        simp only [hcf] at h'
        cases hs : buildMemOps tensors TA onnx_node.name "store" (pe_names.getD cur "")
            (_get_pe_sram_bytes pc (pe_names.getD cur "")) onnx_node.output 0 with
        | error e => simp only [hs] at h'; cases h'
        | ok stores2 =>
          simp only [hs] at h'
          injection h' with h'
          rw [Prod.mk.injEq] at h'
          obtain ⟨e1, h'⟩ := h'
          rw [Prod.mk.injEq] at h'
          obtain ⟨e2, e3⟩ := h'
          subst e1
          subst e3
          exact ⟨hname, rfl, ⟨res, rfl, e2.symm⟩, rfl⟩

theorem lowerNode_ok_intro {tensors : List (String × TensorRec)} {TA : List (String × Int)}
    {pc : PlatformConfig} {pe_names : List String} {onnx_node : NodeProto}
    {idx cur : Nat} {loads : List TNode} {res : Int × String} {stores : List TNode}
    (hname : onnx_node.name ≠ "")
    (hl : buildMemOps tensors TA onnx_node.name "load" (pe_names.getD cur "")
      (_get_pe_sram_bytes pc (pe_names.getD cur "")) onnx_node.input 0 = .ok loads)
    (hcf : computeFold tensors onnx_node.output 1 "fp32" = .ok res)
    (hs : buildMemOps tensors TA onnx_node.name "store" (pe_names.getD cur "")
      (_get_pe_sram_bytes pc (pe_names.getD cur "")) onnx_node.output 0 = .ok stores) :
    lowerNode tensors TA pc pe_names onnx_node idx cur =
      .ok (loads, TNode.compute (onnx_node.name ++ "_compute")
        (_map_onnx_op_to_gwr_op onnx_node.op_type) (pe_names.getD cur "") res.2 res.1,
        stores) := by
  unfold lowerNode
  rw [if_neg hname]
  show (match buildMemOps tensors TA onnx_node.name "load" (pe_names.getD cur "")
      (_get_pe_sram_bytes pc (pe_names.getD cur "")) onnx_node.input 0 with
    | .error e => (Except.error e : Except String (List TNode × TNode × List TNode))
    | .ok loads2 =>
      match computeFold tensors onnx_node.output 1 "fp32" with
      | .error e => .error e
      | .ok res =>
        match buildMemOps tensors TA onnx_node.name "store" (pe_names.getD cur "")
          (_get_pe_sram_bytes pc (pe_names.getD cur "")) onnx_node.output 0 with
        | .error e => .error e
        | .ok stores2 => .ok (loads2, TNode.compute (onnx_node.name ++ "_compute")
            (_map_onnx_op_to_gwr_op onnx_node.op_type) (pe_names.getD cur "") res.2 res.1,
            stores2)) = _
  simp only [hl, hcf, hs]

theorem lowerNode_error_name {tensors : List (String × TensorRec)} {TA : List (String × Int)}
    {pc : PlatformConfig} {pe_names : List String} {onnx_node : NodeProto} {idx cur : Nat}
    (hname : onnx_node.name = "") :
    lowerNode tensors TA pc pe_names onnx_node idx cur =
      .error ("Node at index " ++ natStr idx ++ " is missing a name") := by
  unfold lowerNode
  rw [if_pos hname]

theorem buildLoop_nil (tensors : List (String × TensorRec)) (TA : List (String × Int))
    (pc : PlatformConfig) (pes : List String) (idx cur : Nat) :
    buildLoop tensors TA pc pes [] idx cur = .ok ([], []) := rfl

theorem buildLoop_cons_elim {tensors : List (String × TensorRec)} {TA : List (String × Int)}
    {pc : PlatformConfig} {pes : List String} {nd : NodeProto} {rest : List NodeProto}
    {idx cur : Nat} {ns : List TNode} {es : List TEdge}
    (h : buildLoop tensors TA pc pes (nd :: rest) idx cur = .ok (ns, es)) :
    ∃ loads comp stores ns' es',
      lowerNode tensors TA pc pes nd idx cur = .ok (loads, comp, stores) ∧
      buildLoop tensors TA pc pes rest (idx + 1) ((cur + 1) % pes.length) = .ok (ns', es') ∧
      ns = loads ++ comp :: stores ++ ns' ∧ es = nodeEdges loads comp stores ++ es' := by
  have h' : (match lowerNode tensors TA pc pes nd idx cur with
    | .error e => (Except.error e : Except String (List TNode × List TEdge))
    | .ok (loads, compute, stores) =>
      match buildLoop tensors TA pc pes rest (idx + 1) ((cur + 1) % pes.length) with
      | .error e => .error e
      | .ok (ns2, es2) => .ok (loads ++ compute :: stores ++ ns2,
          nodeEdges loads compute stores ++ es2)) = Except.ok (ns, es) := h
  clear h
  cases hl : lowerNode tensors TA pc pes nd idx cur with
  | error e => simp only [hl] at h'; cases h'
  | ok parts =>
    rcases parts with ⟨loads, comp, stores⟩
    simp only [hl] at h'
    cases hr : buildLoop tensors TA pc pes rest (idx + 1) ((cur + 1) % pes.length) with
    | error e => simp only [hr] at h'; cases h'
    | ok tail =>
      rcases tail with ⟨ns', es'⟩
      simp only [hr] at h'
      injection h' with h'
      rw [Prod.mk.injEq] at h'
      exact ⟨loads, comp, stores, ns', es', rfl, rfl, h'.1.symm, h'.2.symm⟩

theorem buildLoop_cons_intro {tensors : List (String × TensorRec)} {TA : List (String × Int)}
    {pc : PlatformConfig} {pes : List String} {nd : NodeProto} {rest : List NodeProto}
    {idx cur : Nat} {loads : List TNode} {comp : TNode} {stores : List TNode}
    {ns' : List TNode} {es' : List TEdge}
    (hl : lowerNode tensors TA pc pes nd idx cur = .ok (loads, comp, stores))
    (hr : buildLoop tensors TA pc pes rest (idx + 1) ((cur + 1) % pes.length) =
      .ok (ns', es')) :
    buildLoop tensors TA pc pes (nd :: rest) idx cur =
      .ok (loads ++ comp :: stores ++ ns', nodeEdges loads comp stores ++ es') := by
  show (match lowerNode tensors TA pc pes nd idx cur with
    | .error e => (Except.error e : Except String (List TNode × List TEdge))
    | .ok (loads, compute, stores) =>
      match buildLoop tensors TA pc pes rest (idx + 1) ((cur + 1) % pes.length) with
      | .error e => .error e
      | .ok (ns2, es2) => .ok (loads ++ compute :: stores ++ ns2,
          nodeEdges loads compute stores ++ es2)) = _
  simp only [hl, hr]

theorem buildLoop_cons_error {tensors : List (String × TensorRec)} {TA : List (String × Int)}
    {pc : PlatformConfig} {pes : List String} {nd : NodeProto} {rest : List NodeProto}
    {idx cur : Nat} {e : String}
    (hl : lowerNode tensors TA pc pes nd idx cur = .error e) :
    buildLoop tensors TA pc pes (nd :: rest) idx cur = .error e := by
  show (match lowerNode tensors TA pc pes nd idx cur with
    | .error e => (Except.error e : Except String (List TNode × List TEdge))
    | .ok (loads, compute, stores) =>
      match buildLoop tensors TA pc pes rest (idx + 1) ((cur + 1) % pes.length) with
      | .error e => .error e
      | .ok (ns2, es2) => .ok (loads ++ compute :: stores ++ ns2,
          nodeEdges loads compute stores ++ es2)) = _
  simp only [hl]

theorem buildLoop_cons_error2 {tensors : List (String × TensorRec)}
    {TA : List (String × Int)} {pc : PlatformConfig} {pes : List String} {nd : NodeProto}
    {rest : List NodeProto} {idx cur : Nat} {e : String}
    {loads : List TNode} {comp : TNode} {stores : List TNode}
    (hl : lowerNode tensors TA pc pes nd idx cur = .ok (loads, comp, stores))
    (hr : buildLoop tensors TA pc pes rest (idx + 1) ((cur + 1) % pes.length) = .error e) :
    buildLoop tensors TA pc pes (nd :: rest) idx cur = .error e := by
  show (match lowerNode tensors TA pc pes nd idx cur with
    | .error e => (Except.error e : Except String (List TNode × List TEdge))
    | .ok (loads, compute, stores) =>
      match buildLoop tensors TA pc pes rest (idx + 1) ((cur + 1) % pes.length) with
      | .error e => .error e
      | .ok (ns2, es2) => .ok (loads ++ compute :: stores ++ ns2,
          nodeEdges loads compute stores ++ es2)) = _
  simp only [hl, hr]


theorem onnx_ok_elim {model : ModelProto} {pc : PlatformConfig} {tt : Timetable}
    (h : onnx_to_gwr_timetable model pc = .ok tt) :
    ∃ TA, _layout_tensors (_collect_tensors model) pc = .ok TA ∧
      pc.processing_elements ≠ [] ∧
      buildLoop (_collect_tensors model) TA pc
        (pc.processing_elements.map (fun pe => pe.name)) model.graph.node 0 0 =
        .ok (tt.nodes, tt.edges) := by
  have h' : (match _layout_tensors (_collect_tensors model) pc with
    | .error e => (Except.error e : Except String Timetable)
    | .ok tensor_addresses =>
      if pc.processing_elements = [] then
        .error "No processing elements found in platform configuration"
      else
        match buildLoop (_collect_tensors model) tensor_addresses pc
          (pc.processing_elements.map (fun pe => pe.name)) model.graph.node 0 0 with
        | .error e => .error e
        | .ok (nodes, edges) => .ok ⟨nodes, edges⟩) = Except.ok tt := h
  clear h
  cases hla : _layout_tensors (_collect_tensors model) pc with
  | error e => simp only [hla] at h'; cases h'
  | ok TA =>
    simp only [hla] at h'
    by_cases hpe : pc.processing_elements = []
    · rw [if_pos hpe] at h'
      cases h'
    · rw [if_neg hpe] at h'
      cases hbl : buildLoop (_collect_tensors model) TA pc
          (pc.processing_elements.map (fun pe => pe.name)) model.graph.node 0 0 with
      | error e => simp only [hbl] at h'; cases h'
      | ok pr =>
        rcases pr with ⟨nodes, edges⟩
        simp only [hbl] at h'
        injection h' with h'
        refine ⟨TA, rfl, hpe, ?_⟩
        rw [← h']
        exact hbl

theorem onnx_ok_intro {model : ModelProto} {pc : PlatformConfig} {TA : List (String × Int)}
    {ns : List TNode} {es : List TEdge}
    (hla : _layout_tensors (_collect_tensors model) pc = .ok TA)
    (hpe : pc.processing_elements ≠ [])
    (hbl : buildLoop (_collect_tensors model) TA pc
      (pc.processing_elements.map (fun pe => pe.name)) model.graph.node 0 0 = .ok (ns, es)) :
    onnx_to_gwr_timetable model pc = .ok ⟨ns, es⟩ := by
  show (match _layout_tensors (_collect_tensors model) pc with
    | .error e => (Except.error e : Except String Timetable)
    | .ok tensor_addresses =>
      if pc.processing_elements = [] then
        .error "No processing elements found in platform configuration"
      else
        match buildLoop (_collect_tensors model) tensor_addresses pc
          (pc.processing_elements.map (fun (pe : ProcessingElement) => pe.name))
          model.graph.node 0 0 with
        | .error e => .error e
        | .ok (nodes, edges) => .ok ⟨nodes, edges⟩) = _
  simp only [hla, hbl, if_neg hpe]

theorem onnx_error_intro {model : ModelProto} {pc : PlatformConfig}
    {TA : List (String × Int)} {e : String}
    (hla : _layout_tensors (_collect_tensors model) pc = .ok TA)
    (hpe : pc.processing_elements ≠ [])
    (hbl : buildLoop (_collect_tensors model) TA pc
      (pc.processing_elements.map (fun pe => pe.name)) model.graph.node 0 0 = .error e) :
    onnx_to_gwr_timetable model pc = .error e := by
  show (match _layout_tensors (_collect_tensors model) pc with
    | .error e => (Except.error e : Except String Timetable)
    | .ok tensor_addresses =>
      if pc.processing_elements = [] then
        .error "No processing elements found in platform configuration"
      else
        match buildLoop (_collect_tensors model) tensor_addresses pc
          (pc.processing_elements.map (fun (pe : ProcessingElement) => pe.name))
          model.graph.node 0 0 with
        | .error e => .error e
        | .ok (nodes, edges) => .ok ⟨nodes, edges⟩) = _
  simp only [hla, hbl, if_neg hpe]

theorem buildLoop_computes {tensors : List (String × TensorRec)} {TA : List (String × Int)}
    {pc : PlatformConfig} {pes : List String} :
    ∀ {ops : List NodeProto} {idx cur : Nat} {ns : List TNode} {es : List TEdge},
    buildLoop tensors TA pc pes ops idx cur = .ok (ns, es) → cur < pes.length →
    (ns.filter (fun n => n.isCompute)).map TNode.pe =
      (List.range ops.length).map (fun j => pes.getD ((cur + j) % pes.length) "") := by
  intro ops
  induction ops with
  | nil =>
    intro idx cur ns es h _
    rw [buildLoop_nil] at h
    injection h with h
    rw [Prod.mk.injEq] at h
    obtain ⟨h1, h2⟩ := h
    subst h1
    simp
  | cons nd rest ih =>
    intro idx cur ns es h hcur
    obtain ⟨loads, comp, stores, ns', es', hl, hr, hns, hes⟩ := buildLoop_cons_elim h
    subst hns
    obtain ⟨hname, hload, ⟨res, hcf, hcomp⟩, hstore⟩ := lowerNode_ok_elim hl
    subst hcomp
    have hloadsf : loads.filter (fun n => n.isCompute) = [] := by
      rw [List.filter_eq_nil_iff]
      intro op hop
      rw [((buildMemOps_shape (Or.inl ⟨rfl, rfl⟩) hload).2 op hop).1]
      exact Bool.false_ne_true
    have hstoresf : stores.filter (fun n => n.isCompute) = [] := by
      rw [List.filter_eq_nil_iff]
      intro op hop
      rw [((buildMemOps_shape (Or.inr ⟨rfl, rfl⟩) hstore).2 op hop).1]
      exact Bool.false_ne_true
    rw [List.filter_append, List.filter_append, hloadsf, List.nil_append,
      List.filter_cons_of_pos rfl, hstoresf, List.cons_append, List.nil_append,
      List.map_cons]
    rw [List.length_cons, List.range_succ_eq_map, List.map_cons, List.map_map]
    have hK : 0 < pes.length := Nat.lt_of_le_of_lt (Nat.zero_le _) hcur
    have hih := ih hr (Nat.mod_lt _ hK)
    congr 1
    · show pes.getD cur "" = pes.getD ((cur + 0) % pes.length) ""
      rw [Nat.add_zero, Nat.mod_eq_of_lt hcur]
    · rw [hih]
      apply List.map_congr_left
      intro j hj
      show pes.getD (((cur + 1) % pes.length + j) % pes.length) "" =
        pes.getD ((cur + (j + 1)) % pes.length) ""
      rw [Nat.mod_add_mod, show cur + 1 + j = cur + (j + 1) from by omega]

theorem ceil_div_step {K : Nat} (hK : 0 < K) (m : Nat) :
    (m + 1 + K - 1) / K = (m + K - 1) / K + (if m % K = 0 then 1 else 0) := by
  obtain ⟨q, r, hrK, hm⟩ : ∃ q r, r < K ∧ m = K * q + r :=
    ⟨m / K, m % K, Nat.mod_lt _ hK, (Nat.div_add_mod m K).symm⟩
  subst hm
  have hmod : (K * q + r) % K = r := by
    rw [Nat.mul_add_mod]
    exact Nat.mod_eq_of_lt hrK
  rw [hmod]
  by_cases h0 : r = 0
  · subst h0
    rw [if_pos rfl]
    have e1 : K * q + 0 + 1 + K - 1 = K * (q + 1) := by
      rw [Nat.mul_succ]
      generalize K * q = a
      omega
    have e2 : K * q + 0 + K - 1 = (K - 1) + K * q := by
      generalize K * q = a
      omega
    rw [e1, e2, Nat.mul_div_cancel_left _ hK, Nat.add_mul_div_left _ _ hK,
      Nat.div_eq_of_lt (by omega)]
    omega
  · rw [if_neg h0]
    have e1 : K * q + r + 1 + K - 1 = r + K * (q + 1) := by
      rw [Nat.mul_succ]
      generalize K * q = a
      omega
    have e2 : K * q + r + K - 1 = (r - 1) + K * (q + 1) := by
      rw [Nat.mul_succ]
      generalize K * q = a
      omega
    rw [e1, e2, Nat.add_mul_div_left _ _ hK, Nat.add_mul_div_left _ _ hK,
      Nat.div_eq_of_lt hrK, Nat.div_eq_of_lt (by omega)]
    omega

theorem mod_shift_eq {K i m : Nat} (hK : 0 < K) (hi : i < K) :
    ((i + m) % K = i) ↔ (m % K = 0) := by
  have hr : m % K < K := Nat.mod_lt _ hK
  constructor
  · intro h
    rw [Nat.add_mod, Nat.mod_eq_of_lt hi] at h
    by_cases hlt : i + m % K < K
    · rw [Nat.mod_eq_of_lt hlt] at h
      omega
    · rw [Nat.mod_eq_sub_mod (le_of_not_lt hlt), Nat.mod_eq_of_lt (by omega)] at h
      omega
  · intro h
    rw [Nat.add_mod, Nat.mod_eq_of_lt hi, h, Nat.add_zero, Nat.mod_eq_of_lt hi]

theorem count_range_mod {K : Nat} (hK : 0 < K) {i : Nat} (hi : i < K) :
    ∀ G : Nat, ((List.range G).map (fun j => j % K)).count i = (G - i + K - 1) / K := by
  intro G
  induction G with
  | zero =>
    rw [List.range_zero, List.map_nil, List.count_nil, Nat.zero_sub,
      Nat.div_eq_of_lt (by omega)]
  | succ G ih =>
    rw [List.range_succ, List.map_append, List.count_append, ih,
      List.map_cons, List.map_nil, List.count_cons, List.count_nil]
    by_cases hle : i ≤ G
    · obtain ⟨m, hm⟩ : ∃ m, G = i + m := ⟨G - i, by omega⟩
      subst hm
      have h1 : i + m - i = m := by omega
      have h2 : i + m + 1 - i = m + 1 := by omega
      rw [h1, h2]
      by_cases h0 : (i + m) % K = i
      · rw [if_pos (by simp [h0])]
        have hm0 : m % K = 0 := (mod_shift_eq hK hi).mp h0
        rw [ceil_div_step hK m, if_pos hm0]
      · rw [if_neg (by simp [h0])]
        have hm0 : m % K ≠ 0 := fun hz => h0 ((mod_shift_eq hK hi).mpr hz)
        rw [ceil_div_step hK m, if_neg hm0]
    · have h1 : G - i = 0 := by omega
      have h2 : G + 1 - i = 0 := by omega
      rw [h1, h2]
      have hne : ¬ (G % K == i) = true := by
        simp only [beq_iff_eq]
        have := Nat.mod_le G K
        omega
      rw [if_neg hne]
      simp


theorem lowerNode_ids {tensors : List (String × TensorRec)} {TA : List (String × Int)}
    {pc : PlatformConfig} {pes : List String} {nd : NodeProto} {idx cur : Nat}
    {loads : List TNode} {comp : TNode} {stores : List TNode}
    (h : lowerNode tensors TA pc pes nd idx cur = .ok (loads, comp, stores)) :
    ((loads ++ (comp :: stores)).map TNode.id).Nodup ∧
    ∀ x ∈ loads ++ (comp :: stores), ∃ s, IdSfx s ∧ x.id = nd.name ++ s := by
  obtain ⟨hname, hload, ⟨res, hcf, hcomp⟩, hstore⟩ := lowerNode_ok_elim h
  obtain ⟨hndl, hl2⟩ := buildMemOps_shape (Or.inl ⟨rfl, rfl⟩) hload
  obtain ⟨hnds, hs2⟩ := buildMemOps_shape (Or.inr ⟨rfl, rfl⟩) hstore
  have hcompid : comp.id = nd.name ++ "_compute" := by
    rw [hcomp]
    rfl
  constructor
  · rw [List.map_append, List.map_cons]
    refine List.Nodup.append hndl ?_ ?_
    · rw [List.nodup_cons]
      refine ⟨?_, hnds⟩
      intro hmem
      rw [List.mem_map] at hmem
      obtain ⟨op, hop, hid⟩ := hmem
      obtain ⟨_, i, _, _, _, hsh⟩ := hs2 op hop
      exact memIdShape_compute_ne (Or.inr rfl) hsh (hid.trans hcompid)
    · intro a ha1 ha2
      rw [List.mem_map] at ha1
      obtain ⟨op1, hop1, e1⟩ := ha1
      obtain ⟨_, i1, _, _, _, hsh1⟩ := hl2 op1 hop1
      rcases List.mem_cons.mp ha2 with rfl | ha2
      · exact memIdShape_compute_ne (Or.inl rfl) hsh1 (e1.trans hcompid)
      · rw [List.mem_map] at ha2
        obtain ⟨op2, hop2, e2⟩ := ha2
        obtain ⟨_, i2, _, _, _, hsh2⟩ := hs2 op2 hop2
        exact memIdShape_load_store_ne hsh1 hsh2 (e1.trans e2.symm)
  · intro x hx
    rcases List.mem_append.mp hx with hx | hx
    · obtain ⟨_, i, _, _, _, hsh⟩ := hl2 x hx
      exact memIdShape_idsfx (Or.inl rfl) hsh
    · rcases List.mem_cons.mp hx with rfl | hx
      · exact ⟨"_compute", IdSfx.compute, hcompid⟩
      · obtain ⟨_, i, _, _, _, hsh⟩ := hs2 x hx
        exact memIdShape_idsfx (Or.inr rfl) hsh

theorem buildLoop_ids {tensors : List (String × TensorRec)} {TA : List (String × Int)}
    {pc : PlatformConfig} {pes : List String} :
    ∀ {ops : List NodeProto} {idx cur : Nat} {ns : List TNode} {es : List TEdge},
    buildLoop tensors TA pc pes ops idx cur = .ok (ns, es) →
    (ops.map (fun nd => nd.name)).Nodup →
    (ns.map TNode.id).Nodup ∧ ∀ x ∈ ns, ∃ op ∈ ops, ∃ s, IdSfx s ∧ x.id = op.name ++ s := by
  intro ops
  induction ops with
  | nil =>
    intro idx cur ns es h _
    rw [buildLoop_nil] at h
    injection h with h
    rw [Prod.mk.injEq] at h
    obtain ⟨h1, h2⟩ := h
    subst h1
    exact ⟨List.nodup_nil, by intro x hx; cases hx⟩
  | cons nd0 rest ih =>
    intro idx cur ns es h hnames
    obtain ⟨loads, comp, stores, ns', es', hl, hr, hns, hes⟩ := buildLoop_cons_elim h
    subst hns
    rw [List.map_cons, List.nodup_cons] at hnames
    obtain ⟨hnotin, hnames2⟩ := hnames
    obtain ⟨hnd1, hsfx1⟩ := lowerNode_ids hl
    obtain ⟨hnd2, hsfx2⟩ := ih hr hnames2
    constructor
    · rw [List.map_append]
      refine List.Nodup.append hnd1 hnd2 ?_
      intro a ha1 ha2
      rw [List.mem_map] at ha1 ha2
      obtain ⟨op1, hop1, e1⟩ := ha1
      obtain ⟨op2, hop2, e2⟩ := ha2
      obtain ⟨s1, hs1, hid1⟩ := hsfx1 op1 hop1
      obtain ⟨op', hop', s2, hs2, hid2⟩ := hsfx2 op2 hop2
      have hnamene : nd0.name ≠ op'.name := by
        intro e
        refine hnotin ?_
        rw [e]
        exact List.mem_map.mpr ⟨op', hop', rfl⟩
      refine idsfx_append_ne hs1 hs2 hnamene ?_
      rw [← hid1, ← hid2]
      exact e1.trans e2.symm
    · intro x hx
      rcases List.mem_append.mp hx with hx | hx
      · obtain ⟨s, hs, hid⟩ := hsfx1 x hx
        exact ⟨nd0, List.mem_cons_self _ _, s, hs, hid⟩
      · obtain ⟨op', hop', s, hs, hid⟩ := hsfx2 x hx
        exact ⟨op', List.mem_cons_of_mem _ hop', s, hs, hid⟩

theorem nodeEdges_mem {loads stores : List TNode} {comp : TNode} {e : TEdge}
    (h : e ∈ nodeEdges loads comp stores) :
    e.kind = "data" ∧ ((e.src ∈ loads.map TNode.id ∧ e.dst = comp.id) ∨
      (e.src = comp.id ∧ e.dst ∈ stores.map TNode.id)) := by
  unfold nodeEdges at h
  rcases List.mem_append.mp h with h | h <;> rw [List.mem_map] at h <;>
    obtain ⟨x, hx, he⟩ := h <;> subst he
  · exact ⟨rfl, Or.inl ⟨List.mem_map.mpr ⟨x, hx, rfl⟩, rfl⟩⟩
  · exact ⟨rfl, Or.inr ⟨rfl, List.mem_map.mpr ⟨x, hx, rfl⟩⟩⟩

theorem buildLoop_edges {tensors : List (String × TensorRec)} {TA : List (String × Int)}
    {pc : PlatformConfig} {pes : List String} :
    ∀ {ops : List NodeProto} {idx cur : Nat} {ns : List TNode} {es : List TEdge},
    buildLoop tensors TA pc pes ops idx cur = .ok (ns, es) → cur < pes.length →
    ∀ e ∈ es, e.kind = "data" ∧
      ∃ j nd loads comp stores, ops.get? j = some nd ∧
        lowerNode tensors TA pc pes nd (idx + j) ((cur + j) % pes.length) =
          .ok (loads, comp, stores) ∧
        ((e.src ∈ loads.map TNode.id ∧ e.dst = comp.id) ∨
          (e.src = comp.id ∧ e.dst ∈ stores.map TNode.id)) := by
  intro ops
  induction ops with
  | nil =>
    intro idx cur ns es h _ e he
    rw [buildLoop_nil] at h
    injection h with h
    rw [Prod.mk.injEq] at h
    obtain ⟨h1, h2⟩ := h
    subst h2
    cases he
  | cons nd0 rest ih =>
    intro idx cur ns es h hcur e he
    obtain ⟨loads, comp, stores, ns', es', hl, hr, hns, hes⟩ := buildLoop_cons_elim h
    subst hes
    have hK : 0 < pes.length := Nat.lt_of_le_of_lt (Nat.zero_le _) hcur
    rcases List.mem_append.mp he with he | he
    · obtain ⟨hkind, hside⟩ := nodeEdges_mem he
      refine ⟨hkind, 0, nd0, loads, comp, stores, rfl, ?_, hside⟩
      rw [Nat.add_zero, Nat.add_zero, Nat.mod_eq_of_lt hcur]
      exact hl
    · obtain ⟨hkind, j, nd, loads2, comp2, stores2, hj, hln, hside⟩ :=
        ih hr (Nat.mod_lt _ hK) e he
      refine ⟨hkind, j + 1, nd, loads2, comp2, stores2, ?_, ?_, hside⟩
      · rw [List.get?_cons_succ]
        exact hj
      · rw [show idx + (j + 1) = idx + 1 + j from by omega,
          show cur + (j + 1) = cur + 1 + j from by omega, ← Nat.mod_add_mod]
        exact hln

theorem lowerNode_ok_of_covered {tensors : List (String × TensorRec)}
    {TA : List (String × Int)} {pc : PlatformConfig} {pes : List String}
    {nd : NodeProto} {idx cur : Nat} (hname : nd.name ≠ "")
    (hsram : ∀ nm, _get_pe_sram_bytes pc nm ≠ 0)
    (hcov : ∀ nm ∈ nd.input ++ nd.output, nm ≠ "" →
      (dictGet? TA nm).isSome = true ∧
      ∃ tr, dictGet? tensors nm = some tr ∧ tr.shape.isSome = true) :
    ∃ parts, lowerNode tensors TA pc pes nd idx cur = .ok parts := by
  have hl' : ∃ loads, buildMemOps tensors TA nd.name "load" (pes.getD cur "")
      (_get_pe_sram_bytes pc (pes.getD cur "")) nd.input 0 = .ok loads := by
    refine buildMemOps_ok_intro (hsram _) 0 ?_
    intro nm h1 h2
    refine ⟨(hcov nm (List.mem_append_left _ h1) h2).1, ?_⟩
    obtain ⟨tr, ht, _⟩ := (hcov nm (List.mem_append_left _ h1) h2).2
    rw [ht]
    rfl
  have hs' : ∃ stores, buildMemOps tensors TA nd.name "store" (pes.getD cur "")
      (_get_pe_sram_bytes pc (pes.getD cur "")) nd.output 0 = .ok stores := by
    refine buildMemOps_ok_intro (hsram _) 0 ?_
    intro nm h1 h2
    refine ⟨(hcov nm (List.mem_append_right _ h1) h2).1, ?_⟩
    obtain ⟨tr, ht, _⟩ := (hcov nm (List.mem_append_right _ h1) h2).2
    rw [ht]
    rfl
  obtain ⟨loads, hl⟩ := hl'
  obtain ⟨stores, hs⟩ := hs'
  obtain ⟨res, hcf⟩ := computeFold_ok_intro 1 "fp32"
    (fun o ho hne => (hcov o (List.mem_append_right _ ho) hne).2)
  exact ⟨_, lowerNode_ok_intro hname hl hcf hs⟩

theorem buildLoop_ok_of_covered {tensors : List (String × TensorRec)}
    {TA : List (String × Int)} {pc : PlatformConfig} {pes : List String}
    (hsram : ∀ nm, _get_pe_sram_bytes pc nm ≠ 0) :
    ∀ {ops : List NodeProto} {idx cur : Nat},
    (∀ nd ∈ ops, nd.name ≠ "") →
    (∀ nd ∈ ops, ∀ nm ∈ nd.input ++ nd.output, nm ≠ "" →
      (dictGet? TA nm).isSome = true ∧
      ∃ tr, dictGet? tensors nm = some tr ∧ tr.shape.isSome = true) →
    ∃ ns es, buildLoop tensors TA pc pes ops idx cur = .ok (ns, es) := by
  intro ops
  induction ops with
  | nil =>
    intro idx cur _ _
    exact ⟨[], [], rfl⟩
  | cons nd rest ih =>
    intro idx cur hnames hcov
    obtain ⟨parts, hl⟩ := lowerNode_ok_of_covered (hnames nd (List.mem_cons_self _ _)) hsram
      (hcov nd (List.mem_cons_self _ _))
    rcases parts with ⟨loads, comp, stores⟩
    obtain ⟨ns', es', hr⟩ := ih (fun q hq => hnames q (List.mem_cons_of_mem _ hq))
      (fun q hq => hcov q (List.mem_cons_of_mem _ hq))
    exact ⟨_, _, buildLoop_cons_intro hl hr⟩

theorem buildLoop_error_name {tensors : List (String × TensorRec)}
    {TA : List (String × Int)} {pc : PlatformConfig} {pes : List String}
    (hsram : ∀ nm, _get_pe_sram_bytes pc nm ≠ 0) :
    ∀ {ops : List NodeProto} {idx cur k : Nat},
    (∀ nd ∈ ops, ∀ nm ∈ nd.input ++ nd.output, nm ≠ "" →
      (dictGet? TA nm).isSome = true ∧
      ∃ tr, dictGet? tensors nm = some tr ∧ tr.shape.isSome = true) →
    List.findIdx? (fun nd => nd.name == "") ops idx = some k →
    buildLoop tensors TA pc pes ops idx cur =
      .error ("Node at index " ++ natStr k ++ " is missing a name") := by
  intro ops
  induction ops with
  | nil =>
    intro idx cur k _ hf
    cases hf
  | cons nd rest ih =>
    intro idx cur k hcov hf
    rw [List.findIdx?_cons] at hf
    by_cases hname : nd.name = ""
    · rw [if_pos (by simp [hname])] at hf
      injection hf with hf
      subst hf
      exact buildLoop_cons_error (lowerNode_error_name hname)
    · rw [if_neg (by simp [hname])] at hf
      obtain ⟨parts, hl⟩ := lowerNode_ok_of_covered hname hsram
        (hcov nd (List.mem_cons_self _ _))
      rcases parts with ⟨loads, comp, stores⟩
      exact buildLoop_cons_error2 hl
        (ih (fun q hq => hcov q (List.mem_cons_of_mem _ hq)) hf)


theorem one_le_foldr_max : ∀ l : List Int, 1 ≤ l.foldr max 1
  | [] => le_refl 1
  | x :: xs => le_trans (one_le_foldr_max xs) (le_max_right x _)

theorem split_memory_op_fields {base_id op_type pe_name : String} {base_addr S C : Int}
    {ops : List TNode}
    (h : _split_memory_op base_id op_type pe_name base_addr S C = .ok ops) :
    ops.map TNode.num_bytes =
      (List.range ops.length).map (fun (i : Nat) => min C (S - (i : Int) * C)) ∧
    ops.map TNode.addr =
      (List.range ops.length).map (fun (i : Nat) => base_addr + (i : Int) * C) := by
  by_cases hC : C = 0
  · unfold _split_memory_op at h
    rw [if_pos hC] at h
    cases h
  · rw [split_memory_op_ok hC] at h
    injection h with h
    subst h
    rw [List.length_map, List.length_range]
    constructor <;>
      (rw [List.map_map]; exact List.map_congr_left (fun i _ => rfl))

theorem layout_devices_ne_nil {tensors : List (String × TensorRec)} {pc : PlatformConfig}
    {res : List (String × Int)} {mm : MemoryMap} {mms : List MemoryMap}
    (hres : _layout_tensors tensors pc = .ok res) (hmm : pc.memory_maps = mm :: mms) :
    (deviceAddressesOf mm.ranges).map Prod.fst ≠ [] := by
  unfold _layout_tensors at hres
  rw [hmm] at hres
  by_cases hr : mm.ranges = []
  · simp only [if_pos hr] at hres
    cases hres
  · simp only [if_neg hr] at hres
    by_cases hd : (deviceAddressesOf mm.ranges).map Prod.fst = []
    · simp only [if_pos hd] at hres
      cases hres
    · exact hd

theorem findIdx_none_forall {p : NodeProto → Bool} :
    ∀ {ops : List NodeProto} {i : Nat}, List.findIdx? p ops i = none →
    ∀ nd ∈ ops, p nd = false := by
  intro ops
  induction ops with
  | nil =>
    intro i _ nd h
    cases h
  | cons nd0 rest ih =>
    intro i hf nd h
    rw [List.findIdx?_cons] at hf
    by_cases hp : p nd0 = true
    · rw [if_pos hp] at hf
      cases hf
    · rw [if_neg hp] at hf
      rcases List.mem_cons.mp h with rfl | h2
      · exact Bool.eq_false_iff.mpr hp
      · exact ih hf nd h2


/-! ## The claims -/

/-- C1 (counterexample): `t` is declared `[2] × int8` and also initialized
with `dims [3]` / `FLOAT`; the declared type metadata is complete, yet the
resolver's final record for `t` is built from the initializer, not from the
declared metadata as the claimed precedence requires. -/
theorem C1_counterexample :
    declaredRec ⟨"t", some [some 2], some TensorProto.INT8⟩ =
      some ⟨some [some 2], TensorProto.INT8, 2⟩ ∧
    dictGet? (_collect_tensors exC1Model) "t" =
      some ⟨some [some 3], TensorProto.FLOAT, 12⟩ ∧
    (⟨some [some 3], TensorProto.FLOAT, 12⟩ : TensorRec) ≠
      ⟨some [some 2], TensorProto.INT8, 2⟩ :=
  ⟨rfl, rfl, by decide⟩

/-- C1 (amended): the initializer pass of `_collect_tensors` unconditionally
overwrites any previously stored record, so whenever an initializer of a
name exists, the resolver's final record for that name is built entirely
from the last such initializer, regardless of declared type metadata. -/
theorem C1_initializer_overwrites {model : ModelProto} {name : String} {init : Initializer}
    (h : lastInit model.graph.initializer name = some init) :
    dictGet? (_collect_tensors model) name = some (initRec init) := by
  have h1 : dictGet? (collectInitializers model.graph.initializer
      (collectDeclared (initializerMapOf model.graph)
        (model.graph.value_info ++ model.graph.input ++ model.graph.output) []))
      name = some (initRec init) := by
    rw [collectInitializers_get, h]
  show dictGet? (collectNodeTensors model.graph.node
    (collectInitializers model.graph.initializer
      (collectDeclared (initializerMapOf model.graph)
        (model.graph.value_info ++ model.graph.input ++ model.graph.output) []))) name = _
  rw [collectNodeTensors_get_of_isSome (by rw [h1]; rfl), h1]

/-- C1 witness: on `exC1Model` the (only) initializer of `t` supplies the
final record. -/
theorem C1_initializer_overwrites_witness :
    lastInit exC1Model.graph.initializer "t" = some ⟨"t", [3], TensorProto.FLOAT⟩ ∧
    dictGet? (_collect_tensors exC1Model) "t" =
      some (initRec ⟨"t", [3], TensorProto.FLOAT⟩) :=
  ⟨rfl, @C1_initializer_overwrites exC1Model "t" ⟨"t", [3], TensorProto.FLOAT⟩ rfl⟩

/-- C2 (counterexample): two operations that share the name `x` convert
successfully but emit two nodes with the same id `x_compute`, so node ids
are not unique for every input. -/
theorem C2_counterexample :
    onnx_to_gwr_timetable exC2Model exPlat =
      .ok ⟨[TNode.compute "x_compute" "add" "pe0" "fp32" 1,
            TNode.compute "x_compute" "add" "pe0" "fp32" 1], []⟩ ∧
    exC2Model.graph.node.length = 2 ∧
    ¬ (([TNode.compute "x_compute" "add" "pe0" "fp32" 1,
         TNode.compute "x_compute" "add" "pe0" "fp32" 1] : List TNode).map TNode.id).Nodup :=
  ⟨rfl, rfl, by decide⟩

/-- C2 (amended): when the graph's operation names are pairwise distinct,
the ids of all emitted timetable nodes are pairwise distinct. -/
theorem C2_unique_ids {model : ModelProto} {pc : PlatformConfig} {tt : Timetable}
    (h : onnx_to_gwr_timetable model pc = .ok tt)
    (hnames : (model.graph.node.map (fun nd => nd.name)).Nodup) :
    (tt.nodes.map TNode.id).Nodup := by
  obtain ⟨TA, hla, hpe, hbl⟩ := onnx_ok_elim h
  exact (buildLoop_ids hbl hnames).1

/-- C2 witness: the `exAddModel` conversion has distinct node ids. -/
theorem C2_unique_ids_witness :
    onnx_to_gwr_timetable exAddModel exPlat = .ok exAddTT ∧
    (exAddModel.graph.node.map (fun nd => nd.name)).Nodup ∧
    (exAddTT.nodes.map TNode.id).Nodup :=
  ⟨rfl, by decide, @C2_unique_ids exAddModel exPlat exAddTT rfl (by decide)⟩

/-- C3: for a transfer of `S ≥ 1` bytes on a processing element of capacity
`C ≥ 1`, `_split_memory_op` succeeds; the chunk count `N` satisfies
`C·(N−1) < S ≤ C·N` (so `N = ceil(S/C)`); chunk `i` has
`num_bytes = min(C, S − i·C)` and address `base + i·C`; the sizes sum to
exactly `S` and each is `≤ C`; a single chunk keeps the unsuffixed base id,
multiple chunks get `_chunk_<index>` suffixes (`chunkIdList`). -/
theorem C3_chunking {base_id op_type pe_name : String} {base_addr S C : Int}
    (hS : 1 ≤ S) (hC : 1 ≤ C) :
    ∃ chunks : List TNode,
      _split_memory_op base_id op_type pe_name base_addr S C = .ok chunks ∧
      1 ≤ chunks.length ∧
      C * ((chunks.length : Int) - 1) < S ∧
      S ≤ C * (chunks.length : Int) ∧
      chunks.map TNode.num_bytes =
        (List.range chunks.length).map (fun (i : Nat) => min C (S - (i : Int) * C)) ∧
      chunks.map TNode.addr =
        (List.range chunks.length).map (fun (i : Nat) => base_addr + (i : Int) * C) ∧
      (chunks.map TNode.num_bytes).sum = S ∧
      (∀ b ∈ chunks.map TNode.num_bytes, b ≤ C) ∧
      chunks.map TNode.id = chunkIdList base_id chunks.length ∧
      ∀ op ∈ chunks, op.isCompute = false := by
  have hC0 : C ≠ 0 := by omega
  have hmain : _split_memory_op base_id op_type pe_name base_addr S C = _ :=
    split_memory_op_ok hC0
  obtain ⟨hq1, hql, hqu⟩ := split_num_chunks_char hS hC
  have hlen := split_memory_op_length hmain
  have hNq : ((((S + C - 1).fdiv C).toNat : Nat) : Int) = (S + C - 1).fdiv C :=
    Int.toNat_of_nonneg (by omega)
  obtain ⟨hnb, haddr⟩ := split_memory_op_fields hmain
  refine ⟨_, hmain, ?_, ?_, ?_, hnb, haddr, ?_, ?_, ?_, split_memory_op_memory hmain⟩
  · rw [hlen]
    omega
  · rw [hlen, hNq]
    exact hql
  · rw [hlen, hNq]
    exact hqu
  · rw [hnb, hlen]
    exact chunk_sum hC _ (by omega) (by rw [hNq]; exact hql) (by rw [hNq]; exact hqu)
  · intro b hb
    rw [hnb] at hb
    rw [List.mem_map] at hb
    obtain ⟨i, _, hib⟩ := hb
    rw [← hib]
    exact min_le_left _ _
  · rw [hlen]
    exact split_memory_op_ids hmain

/-- C3 witness: splitting 10 bytes at capacity 4 gives 3 chunks. -/
theorem C3_chunking_witness :
    (1 : Int) ≤ 10 ∧ (1 : Int) ≤ 4 ∧
    (∃ chunks : List TNode,
      _split_memory_op "n_load_0" "load" "pe0" 4096 10 4 = .ok chunks ∧
      1 ≤ chunks.length ∧
      (4 : Int) * ((chunks.length : Int) - 1) < 10 ∧
      (10 : Int) ≤ 4 * (chunks.length : Int) ∧
      chunks.map TNode.num_bytes =
        (List.range chunks.length).map (fun (i : Nat) => min 4 (10 - (i : Int) * 4)) ∧
      chunks.map TNode.addr =
        (List.range chunks.length).map (fun (i : Nat) => 4096 + (i : Int) * 4) ∧
      (chunks.map TNode.num_bytes).sum = 10 ∧
      (∀ b ∈ chunks.map TNode.num_bytes, b ≤ 4) ∧
      chunks.map TNode.id = chunkIdList "n_load_0" chunks.length ∧
      ∀ op ∈ chunks, op.isCompute = false) :=
  ⟨by decide, by decide,
    @C3_chunking "n_load_0" "load" "pe0" 4096 10 4 (by decide) (by decide)⟩


/-- C4: the device memory allocator processes the tensors in stable
descending `size_bytes` order, hands devices out round-robin over the
distinct device list of the first memory map, and on every device the
address sequence forms a chain: each address is the previous one advanced
by the 64-byte-aligned size of the previous tensor, so consecutive gaps are
multiples of 64 no smaller than the previous tensor's true size, and no two
byte ranges on one device overlap. -/
theorem C4_allocator {tensors : List (String × TensorRec)} {pc : PlatformConfig}
    {TA : List (String × Int)}
    (h : _layout_tensors tensors pc = .ok TA)
    (hgood : ∀ p ∈ tensors, goodRec p.2)
    (hnodup : (tensors.map Prod.fst).Nodup) :
    ∃ mm mms devs trace, pc.memory_maps = mm :: mms ∧
      devs = (deviceAddressesOf mm.ranges).map Prod.fst ∧ devs ≠ [] ∧
      trace = allocTrace devs (sortDescBySize tensors) (deviceAddressesOf mm.ranges) 0 ∧
      TA = trace.map (fun e => (e.tensor, e.addr)) ∧
      List.Perm (sortDescBySize tensors) tensors ∧
      (sortDescBySize tensors).Pairwise (fun a b => b.2.size_bytes ≤ a.2.size_bytes) ∧
      (∀ s : Int, (sortDescBySize tensors).filter (fun p => decide (p.2.size_bytes = s)) =
        tensors.filter (fun p => decide (p.2.size_bytes = s))) ∧
      (∀ k (hk : k < trace.length),
        (trace.get ⟨k, hk⟩).device = devs.getD (k % devs.length) "") ∧
      (∀ e ∈ trace, 64 ∣ align64 e.size ∧ e.size ≤ align64 e.size) ∧
      (∀ d, List.Chain' (fun e1 e2 => e2.addr = e1.addr + align64 e1.size)
        (trace.filter (fun e => decide (e.device = d)))) ∧
      (∀ d, (trace.filter (fun e => decide (e.device = d))).Pairwise
        (fun e1 e2 => e1.addr + e1.size ≤ e2.addr)) := by
  obtain ⟨mm, mms, hmm, hranges, hwalk⟩ := layout_ok_elim h
  have hdev := layout_devices_ne_nil h hmm
  have hdevlen : 0 < ((deviceAddressesOf mm.ranges).map Prod.fst).length :=
    List.length_pos.mpr hdev
  refine ⟨mm, mms, _, _, hmm, rfl, hdev, rfl, ?_, sortDescBySize_perm tensors,
    sortDescBySize_sorted tensors, fun s => sortDescBySize_stable tensors s,
    ?_, ?_, ?_, ?_⟩
  · rw [hwalk, allocWalk_eq_trace _ (sortDescBySize tensors) (deviceAddressesOf mm.ranges)
      0 [] (fun p _ => rfl)
      (((sortDescBySize_perm tensors).map Prod.fst).nodup_iff.mpr hnodup),
      List.nil_append]
  · intro k hk
    have hres := allocTrace_devices _ (sortDescBySize tensors) (deviceAddressesOf mm.ranges)
      0 hdevlen k hk
    rw [Nat.zero_add] at hres
    exact hres
  · intro e _
    exact ⟨align64_dvd e.size, align64_ge e.size⟩
  · intro d
    exact chainedFrom_chain'
      (allocTrace_chained ((deviceAddressesOf mm.ranges).map Prod.fst) d
        (sortDescBySize tensors) (deviceAddressesOf mm.ranges) 0)
  · intro d
    refine chainedFrom_pairwise
      (allocTrace_chained ((deviceAddressesOf mm.ranges).map Prod.fst) d
        (sortDescBySize tensors) (deviceAddressesOf mm.ranges) 0) ?_
    intro e he
    have hmem := List.mem_of_mem_filter he
    have hsz : e.size ∈ (sortDescBySize tensors).map (fun p => p.2.size_bytes) := by
      rw [← allocTrace_sizes ((deviceAddressesOf mm.ranges).map Prod.fst)
        (sortDescBySize tensors) (deviceAddressesOf mm.ranges) 0]
      exact List.mem_map.mpr ⟨e, hmem, rfl⟩
    rw [List.mem_map] at hsz
    obtain ⟨p, hp, hpe⟩ := hsz
    have hone := (hgood p ((sortDescBySize_perm tensors).mem_iff.mp hp)).1
    omega

/-- C4 witness: the layout of `exTensors` (16 and 8 bytes) on `exPlat`. -/
theorem C4_allocator_witness :
    _layout_tensors exTensors exPlat = .ok [("a", 4096), ("b", 4160)] ∧
    (∀ p ∈ exTensors, goodRec p.2) ∧
    (exTensors.map Prod.fst).Nodup ∧
    (∃ mm mms devs trace, exPlat.memory_maps = mm :: mms ∧
      devs = (deviceAddressesOf mm.ranges).map Prod.fst ∧ devs ≠ [] ∧
      trace = allocTrace devs (sortDescBySize exTensors) (deviceAddressesOf mm.ranges) 0 ∧
      [("a", 4096), ("b", 4160)] = trace.map (fun e => (e.tensor, e.addr)) ∧
      List.Perm (sortDescBySize exTensors) exTensors ∧
      (sortDescBySize exTensors).Pairwise (fun a b => b.2.size_bytes ≤ a.2.size_bytes) ∧
      (∀ s : Int, (sortDescBySize exTensors).filter (fun p => decide (p.2.size_bytes = s)) =
        exTensors.filter (fun p => decide (p.2.size_bytes = s))) ∧
      (∀ k (hk : k < trace.length),
        (trace.get ⟨k, hk⟩).device = devs.getD (k % devs.length) "") ∧
      (∀ e ∈ trace, 64 ∣ align64 e.size ∧ e.size ≤ align64 e.size) ∧
      (∀ d, List.Chain' (fun e1 e2 => e2.addr = e1.addr + align64 e1.size)
        (trace.filter (fun e => decide (e.device = d)))) ∧
      (∀ d, (trace.filter (fun e => decide (e.device = d))).Pairwise
        (fun e1 e2 => e1.addr + e1.size ≤ e2.addr))) :=
  ⟨rfl, by decide, by decide,
    @C4_allocator exTensors exPlat [("a", 4096), ("b", 4160)] rfl (by decide) (by decide)⟩

/-- C5: the compute record of a lowered operation: `num_ops` is the maximum
(floor 1) of the resolved element counts of the non-empty outputs, `dtype`
is the resolved dtype string of the last non-empty output (`fp32` when
there is none), and `op` comes from the static `op_map` table, defaulting
to the arithmetic category `add` for unrecognized kinds. -/
theorem C5_compute_record {tensors : List (String × TensorRec)} {TA : List (String × Int)}
    {pc : PlatformConfig} {pes : List String} {nd : NodeProto} {idx cur : Nat}
    {loads : List TNode} {comp : TNode} {stores : List TNode}
    (h : lowerNode tensors TA pc pes nd idx cur = .ok (loads, comp, stores)) :
    comp.isCompute = true ∧
    comp.id = nd.name ++ "_compute" ∧
    comp.num_ops = ((nd.output.filter (fun s => decide (s ≠ ""))).map
      (resolvedElemCount tensors)).foldr max 1 ∧
    comp.dtype = (match (nd.output.filter (fun s => decide (s ≠ ""))).getLast? with
      | none => "fp32"
      | some o => resolvedDtypeStr tensors o) ∧
    comp.op = _map_onnx_op_to_gwr_op nd.op_type ∧
    (∀ ty v, op_map.find? (fun p => p.1 = ty) = some v →
      _map_onnx_op_to_gwr_op ty = v.2) ∧
    (∀ ty, op_map.find? (fun p => p.1 = ty) = none →
      _map_onnx_op_to_gwr_op ty = "add") := by
  obtain ⟨hname, hload, ⟨res, hcf, hcomp⟩, hstore⟩ := lowerNode_ok_elim h
  subst hcomp
  refine ⟨rfl, rfl, ?_, ?_, rfl, ?_, ?_⟩
  · show res.1 = _
    rw [computeFold_num_ops hcf (le_refl (1 : Int))]
    exact max_eq_right (one_le_foldr_max _)
  · show res.2 = _
    exact computeFold_dtype hcf
  · intro ty v hv
    unfold _map_onnx_op_to_gwr_op
    rw [hv]
    rfl
  · intro ty hv
    unfold _map_onnx_op_to_gwr_op
    rw [hv]
    rfl

/-- C5 witness: the compute record of the `add0` operation of `exAddModel`
(`num_ops = 4` from output `y : [4]`, dtype `fp32`, op `add`). -/
theorem C5_compute_record_witness :
    lowerNode (_collect_tensors exAddModel) [("x", 4096), ("y", 4160)] exPlat ["pe0"]
      ⟨"add0", "Add", ["x"], ["y"]⟩ 0 0 =
      .ok ([TNode.memory "add0_load_0" "load" "pe0" 4096 16],
        TNode.compute "add0_compute" "add" "pe0" "fp32" 4,
        [TNode.memory "add0_store_0" "store" "pe0" 4160 16]) ∧
    ((TNode.compute "add0_compute" "add" "pe0" "fp32" 4).isCompute = true ∧
      (TNode.compute "add0_compute" "add" "pe0" "fp32" 4).id = "add0" ++ "_compute" ∧
      (TNode.compute "add0_compute" "add" "pe0" "fp32" 4).num_ops =
        (((["y"] : List String).filter (fun s => decide (s ≠ ""))).map
          (resolvedElemCount (_collect_tensors exAddModel))).foldr max 1 ∧
      (TNode.compute "add0_compute" "add" "pe0" "fp32" 4).dtype =
        (match ((["y"] : List String).filter (fun s => decide (s ≠ ""))).getLast? with
          | none => "fp32"
          | some o => resolvedDtypeStr (_collect_tensors exAddModel) o) ∧
      (TNode.compute "add0_compute" "add" "pe0" "fp32" 4).op =
        _map_onnx_op_to_gwr_op "Add" ∧
      (∀ ty v, op_map.find? (fun p => p.1 = ty) = some v →
        _map_onnx_op_to_gwr_op ty = v.2) ∧
      (∀ ty, op_map.find? (fun p => p.1 = ty) = none →
        _map_onnx_op_to_gwr_op ty = "add")) :=
  ⟨rfl, @C5_compute_record (_collect_tensors exAddModel) [("x", 4096), ("y", 4160)] exPlat
    ["pe0"] ⟨"add0", "Add", ["x"], ["y"]⟩ 0 0
    [TNode.memory "add0_load_0" "load" "pe0" 4096 16]
    (TNode.compute "add0_compute" "add" "pe0" "fp32" 4)
    [TNode.memory "add0_store_0" "store" "pe0" 4160 16] rfl⟩

/-- C6: every emitted edge has kind `data` and connects, within one original
operation `j`, either one of that operation's load chunks to its compute
record or its compute record to one of its store chunks; no edge joins
nodes of two different original operations. -/
theorem C6_edges {model : ModelProto} {pc : PlatformConfig} {tt : Timetable}
    (h : onnx_to_gwr_timetable model pc = .ok tt) :
    ∃ TA, _layout_tensors (_collect_tensors model) pc = .ok TA ∧
      ∀ e ∈ tt.edges, e.kind = "data" ∧
        ∃ j nd loads comp stores, model.graph.node.get? j = some nd ∧
          lowerNode (_collect_tensors model) TA pc
            (pc.processing_elements.map (fun pe => pe.name)) nd j
            (j % pc.processing_elements.length) = .ok (loads, comp, stores) ∧
          ((e.src ∈ loads.map TNode.id ∧ e.dst = comp.id) ∨
            (e.src = comp.id ∧ e.dst ∈ stores.map TNode.id)) := by
  obtain ⟨TA, hla, hpe, hbl⟩ := onnx_ok_elim h
  refine ⟨TA, hla, ?_⟩
  intro e he
  have hK : 0 < (pc.processing_elements.map (fun pe => pe.name)).length := by
    rw [List.length_map]
    exact List.length_pos.mpr hpe
  obtain ⟨hkind, j, nd, loads, comp, stores, hj, hln, hside⟩ :=
    buildLoop_edges hbl hK e he
  simp only [Nat.zero_add, List.length_map] at hln
  exact ⟨hkind, j, nd, loads, comp, stores, hj, hln, hside⟩

/-- C6 witness: the two edges of the `exAddModel` conversion. -/
theorem C6_edges_witness :
    onnx_to_gwr_timetable exAddModel exPlat = .ok exAddTT ∧
    (∃ TA, _layout_tensors (_collect_tensors exAddModel) exPlat = .ok TA ∧
      ∀ e ∈ exAddTT.edges, e.kind = "data" ∧
        ∃ j nd loads comp stores, exAddModel.graph.node.get? j = some nd ∧
          lowerNode (_collect_tensors exAddModel) TA exPlat
            (exPlat.processing_elements.map (fun pe => pe.name)) nd j
            (j % exPlat.processing_elements.length) = .ok (loads, comp, stores) ∧
          ((e.src ∈ loads.map TNode.id ∧ e.dst = comp.id) ∨
            (e.src = comp.id ∧ e.dst ∈ stores.map TNode.id))) :=
  ⟨rfl, @C6_edges exAddModel exPlat exAddTT rfl⟩

/-- C7: with the round-robin cursor starting at element 0 and persisting
across operations, the `j`-th operation's compute record runs on processing
element `j mod K`, and element `i < K` receives exactly
`ceil((G − i)/K) = (G − i + K − 1) / K` of the `G` operations. -/
theorem C7_round_robin {model : ModelProto} {pc : PlatformConfig} {tt : Timetable}
    (h : onnx_to_gwr_timetable model pc = .ok tt) :
    (tt.nodes.filter (fun n => n.isCompute)).map TNode.pe =
      (List.range model.graph.node.length).map
        (fun j => (pc.processing_elements.map (fun pe => pe.name)).getD
          (j % pc.processing_elements.length) "") ∧
    ∀ i, i < pc.processing_elements.length →
      ((List.range model.graph.node.length).map
        (fun j => j % pc.processing_elements.length)).count i =
      (model.graph.node.length - i + pc.processing_elements.length - 1) /
        pc.processing_elements.length := by
  obtain ⟨TA, hla, hpe, hbl⟩ := onnx_ok_elim h
  have hK0 : 0 < (pc.processing_elements.map (fun pe => pe.name)).length := by
    rw [List.length_map]
    exact List.length_pos.mpr hpe
  constructor
  · rw [buildLoop_computes hbl hK0]
    refine List.map_congr_left ?_
    intro j _
    simp only [Nat.zero_add, List.length_map]
  · intro i hi
    exact count_range_mod (List.length_pos.mpr hpe) hi _

/-- C7 witness: one `Add` operation on the one-element platform `exPlat`. -/
theorem C7_round_robin_witness :
    onnx_to_gwr_timetable exAddModel exPlat = .ok exAddTT ∧
    ((exAddTT.nodes.filter (fun n => n.isCompute)).map TNode.pe =
      (List.range exAddModel.graph.node.length).map
        (fun j => (exPlat.processing_elements.map (fun pe => pe.name)).getD
          (j % exPlat.processing_elements.length) "") ∧
    ∀ i, i < exPlat.processing_elements.length →
      ((List.range exAddModel.graph.node.length).map
        (fun j => j % exPlat.processing_elements.length)).count i =
      (exAddModel.graph.node.length - i + exPlat.processing_elements.length - 1) /
        exPlat.processing_elements.length) :=
  ⟨rfl, @C7_round_robin exAddModel exPlat exAddTT rfl⟩


/-- C8 (counterexample): a graph whose every operation carries a name, on a
platform with a processing element and every referenced tensor resolved,
still aborts — a configured `sram_bytes` of 0 raises `ZeroDivisionError`
inside the chunk computation, so the empty-name check is not the only
per-operation abort. -/
theorem C8_counterexample :
    (∀ nd ∈ exC8Model.graph.node, nd.name ≠ "") ∧
    exC8Plat.processing_elements ≠ [] ∧
    (dictGet? (_collect_tensors exC8Model) "t").isSome = true ∧
    onnx_to_gwr_timetable exC8Model exC8Plat =
      .error "integer division or modulo by zero" :=
  ⟨by decide, by decide, rfl, rfl⟩

/-- C8 (amended): under the extra hypothesis that no processing element
declares `sram_bytes = 0`, the empty-name check is the only per-operation
abort: if some operation name is empty, the conversion fails naming the
index of the first such operation, and if all names are non-empty the
conversion succeeds. -/
theorem C8_empty_name_gate {model : ModelProto} {pc : PlatformConfig}
    {TA : List (String × Int)}
    (hla : _layout_tensors (_collect_tensors model) pc = .ok TA)
    (hpe : pc.processing_elements ≠ [])
    (hsram : ∀ pe ∈ pc.processing_elements, pe.config.sram_bytes ≠ some 0) :
    (∀ k, List.findIdx? (fun nd => nd.name == "") model.graph.node = some k →
      onnx_to_gwr_timetable model pc =
        .error ("Node at index " ++ natStr k ++ " is missing a name")) ∧
    (List.findIdx? (fun nd => nd.name == "") model.graph.node = none →
      ∃ tt, onnx_to_gwr_timetable model pc = .ok tt) := by
  have hsram2 : ∀ nm, _get_pe_sram_bytes pc nm ≠ 0 := fun nm =>
    getPeSramLoop_ne_zero hsram
  have hcov : ∀ nd ∈ model.graph.node, ∀ nm ∈ nd.input ++ nd.output, nm ≠ "" →
      (dictGet? TA nm).isSome = true ∧
      ∃ tr, dictGet? (_collect_tensors model) nm = some tr ∧ tr.shape.isSome = true := by
    intro nd hnd nm hnm hne
    have href : nm ∈ referencedNames model.graph := by
      unfold referencedNames
      exact List.mem_append_right _ (List.mem_flatten.mpr
        ⟨nd.input ++ nd.output, List.mem_map.mpr ⟨nd, hnd, rfl⟩, hnm⟩)
    have hsome := collect_tensors_covers model href hne
    obtain ⟨tr, htr⟩ := Option.isSome_iff_exists.mp hsome
    exact ⟨layout_covers hla hsome, tr, htr, (collect_tensors_lookup_good model htr).2⟩
  constructor
  · intro k hf
    exact onnx_error_intro hla hpe (buildLoop_error_name hsram2 hcov hf)
  · intro hf
    have hnames : ∀ nd ∈ model.graph.node, nd.name ≠ "" := by
      intro nd hnd
      have h2 := findIdx_none_forall hf nd hnd
      simp only [beq_eq_false_iff_ne, ne_eq] at h2
      exact h2
    have hok' : ∃ ns es, buildLoop (_collect_tensors model) TA pc
        (pc.processing_elements.map (fun pe => pe.name)) model.graph.node 0 0 =
        .ok (ns, es) := buildLoop_ok_of_covered hsram2 hnames hcov
    obtain ⟨ns, es, hok⟩ := hok'
    exact ⟨_, onnx_ok_intro hla hpe hok⟩

/-- C8 witness: the second operation of `exC8NameModel` has no name, and the
conversion reports index 1. -/
theorem C8_empty_name_gate_witness :
    _layout_tensors (_collect_tensors exC8NameModel) exPlat = .ok [] ∧
    exPlat.processing_elements ≠ [] ∧
    (∀ pe ∈ exPlat.processing_elements, pe.config.sram_bytes ≠ some 0) ∧
    ((∀ k, List.findIdx? (fun nd => nd.name == "") exC8NameModel.graph.node = some k →
      onnx_to_gwr_timetable exC8NameModel exPlat =
        .error ("Node at index " ++ natStr k ++ " is missing a name")) ∧
    (List.findIdx? (fun nd => nd.name == "") exC8NameModel.graph.node = none →
      ∃ tt, onnx_to_gwr_timetable exC8NameModel exPlat = .ok tt)) ∧
    List.findIdx? (fun nd => nd.name == "") exC8NameModel.graph.node = some 1 ∧
    onnx_to_gwr_timetable exC8NameModel exPlat =
      .error "Node at index 1 is missing a name" :=
  ⟨rfl, by decide, by decide,
    @C8_empty_name_gate exC8NameModel exPlat [] rfl (by decide) (by decide),
    rfl, rfl⟩

/-- C9: the tensor resolver is total over the referenced names: its table
has pairwise-distinct keys, every record has `size_bytes ≥ 1`, every
non-empty name referenced anywhere resolves, the num-ops calculation (and
hence its `Output tensor not found` branch) cannot fail on a resolved name,
and the address table of a successful layout covers every resolved name. -/
theorem C9_resolver_total (model : ModelProto) :
    ((_collect_tensors model).map Prod.fst).Nodup ∧
    (∀ p ∈ _collect_tensors model, 1 ≤ p.2.size_bytes) ∧
    (∀ name, name ∈ referencedNames model.graph → name ≠ "" →
      (dictGet? (_collect_tensors model) name).isSome = true) ∧
    (∀ name tr, dictGet? (_collect_tensors model) name = some tr →
      ∃ k, _calculate_num_ops (_collect_tensors model) name = .ok k ∧ 1 ≤ k) ∧
    (∀ pcy TA name, _layout_tensors (_collect_tensors model) pcy = .ok TA →
      (dictGet? (_collect_tensors model) name).isSome = true →
      (dictGet? TA name).isSome = true) := by
  refine ⟨collect_tensors_nodup model, ?_, ?_, ?_, ?_⟩
  · intro p hp
    exact (collect_tensors_good model p hp).1
  · intro name h hne
    exact collect_tensors_covers model h hne
  · intro name tr htr
    exact ⟨_, calculate_num_ops_ok htr (collect_tensors_lookup_good model htr),
      le_max_left 1 _⟩
  · intro pcy TA name hla hsome
    exact layout_covers hla hsome

/-- C10: the `<index>` of a load (store) id is the slot's position in the
operation's full input (output) list, counting the skipped empty slots:
every emitted memory op carries the index of a non-empty slot, and every
non-empty slot yields an op carrying exactly its position. -/
theorem C10_slot_indices {tensors : List (String × TensorRec)} {TA : List (String × Int)}
    {pc : PlatformConfig} {pes : List String} {nd : NodeProto} {idx cur : Nat}
    {loads : List TNode} {comp : TNode} {stores : List TNode}
    (h : lowerNode tensors TA pc pes nd idx cur = .ok (loads, comp, stores))
    (hsram : 1 ≤ _get_pe_sram_bytes pc (pes.getD cur ""))
    (hgood : ∀ p ∈ tensors, goodRec p.2) :
    (∀ op ∈ loads, ∃ i, i < nd.input.length ∧ nd.input.getD i "" ≠ "" ∧
      memIdShape nd.name "_load_" i op.id) ∧
    (∀ k, k < nd.input.length → nd.input.getD k "" ≠ "" →
      ∃ op ∈ loads, memIdShape nd.name "_load_" k op.id) ∧
    (∀ op ∈ stores, ∃ i, i < nd.output.length ∧ nd.output.getD i "" ≠ "" ∧
      memIdShape nd.name "_store_" i op.id) ∧
    (∀ k, k < nd.output.length → nd.output.getD k "" ≠ "" →
      ∃ op ∈ stores, memIdShape nd.name "_store_" k op.id) := by
  obtain ⟨hname, hload, hcfres, hstore⟩ := lowerNode_ok_elim h
  refine ⟨?_, ?_, ?_, ?_⟩
  · intro op hop
    obtain ⟨_, i, _, hi2, hi3, hi4⟩ := (buildMemOps_shape (Or.inl ⟨rfl, rfl⟩) hload).2 op hop
    exact ⟨i, hi2, hi3, hi4⟩
  · intro k hk hkne
    obtain ⟨op, hop, hsh⟩ := buildMemOps_slot (Or.inl ⟨rfl, rfl⟩) hsram hgood hload k hk hkne
    rw [Nat.zero_add] at hsh
    exact ⟨op, hop, hsh⟩
  · intro op hop
    obtain ⟨_, i, _, hi2, hi3, hi4⟩ := (buildMemOps_shape (Or.inr ⟨rfl, rfl⟩) hstore).2 op hop
    exact ⟨i, hi2, hi3, hi4⟩
  · intro k hk hkne
    obtain ⟨op, hop, hsh⟩ := buildMemOps_slot (Or.inr ⟨rfl, rfl⟩) hsram hgood hstore k hk hkne
    rw [Nat.zero_add] at hsh
    exact ⟨op, hop, hsh⟩

/-- C10 witness: operation `n0` of `exSkipModel` has an empty input slot 0
and tensor `t` in slot 1; the only load id is `n0_load_1` — index suffixes
count the skipped empty slot and need not start at 0. -/
theorem C10_slot_indices_witness :
    lowerNode (_collect_tensors exSkipModel) [("t", 4096), ("u", 4160)] exPlat ["pe0"]
      ⟨"n0", "Add", ["", "t"], ["u"]⟩ 0 0 =
      .ok ([TNode.memory "n0_load_1" "load" "pe0" 4096 4],
        TNode.compute "n0_compute" "add" "pe0" "fp32" 1,
        [TNode.memory "n0_store_0" "store" "pe0" 4160 4]) ∧
    ([TNode.memory "n0_load_1" "load" "pe0" 4096 4] : List TNode).map TNode.id =
      ["n0_load_1"] ∧
    (1 : Int) ≤ _get_pe_sram_bytes exPlat (["pe0"].getD 0 "") ∧
    (∀ p ∈ _collect_tensors exSkipModel, goodRec p.2) ∧
    ((∀ op ∈ ([TNode.memory "n0_load_1" "load" "pe0" 4096 4] : List TNode),
      ∃ i, i < (["", "t"] : List String).length ∧ (["", "t"] : List String).getD i "" ≠ "" ∧
        memIdShape "n0" "_load_" i op.id) ∧
    (∀ k, k < (["", "t"] : List String).length → (["", "t"] : List String).getD k "" ≠ "" →
      ∃ op ∈ ([TNode.memory "n0_load_1" "load" "pe0" 4096 4] : List TNode),
        memIdShape "n0" "_load_" k op.id) ∧
    (∀ op ∈ ([TNode.memory "n0_store_0" "store" "pe0" 4160 4] : List TNode),
      ∃ i, i < (["u"] : List String).length ∧ (["u"] : List String).getD i "" ≠ "" ∧
        memIdShape "n0" "_store_" i op.id) ∧
    (∀ k, k < (["u"] : List String).length → (["u"] : List String).getD k "" ≠ "" →
      ∃ op ∈ ([TNode.memory "n0_store_0" "store" "pe0" 4160 4] : List TNode),
        memIdShape "n0" "_store_" k op.id)) :=
  ⟨rfl, rfl, by decide, by decide,
    @C10_slot_indices (_collect_tensors exSkipModel) [("t", 4096), ("u", 4160)] exPlat
      ["pe0"] ⟨"n0", "Add", ["", "t"], ["u"]⟩ 0 0
      [TNode.memory "n0_load_1" "load" "pe0" 4096 4]
      (TNode.compute "n0_compute" "add" "pe0" "fp32" 1)
      [TNode.memory "n0_store_0" "store" "pe0" 4160 4]
      rfl (by decide) (by decide)⟩

end GWR
